import Mathlib

/-!
# Word-frequency hash table (htable.c), prime sizer (mylib.c) and tree (tree.c)

A shallow embedding of the open-addressing hash table of `htable.c`, of
`get_prime` / `is_prime` of `mylib.c` and of the search tree of `tree.c`,
followed by the properties established about them.

Modelling conventions.

* A key is a C string; it is represented by the list of its bytes before the
  terminating NUL (`Key`).  `strcmp(a, b) == 0` is equality of these lists.
* The three arrays `keys`, `freqs`, `stats` are lists; `keys[i] == NULL` is
  `none`.  Reads use `List.getD`, writes use `List.set`; the theorems below
  show that every index read or written by the code is in bounds.
* `capacity`, `num_keys`, the frequencies and the collision counters are C
  `int`s.  They are modelled as natural numbers: the probe index stays below
  `capacity`, so `index + step` stays below `2 * capacity` and never wraps
  for capacities up to `2^30`, and a frequency only overflows after `2^31`
  insertions of one key.  The hash accumulator of `htable_word_to_int` does
  wrap and is reduced modulo `2^32` explicitly.
* `x % 0` is undefined in C.  `htable_insert` divides by `capacity` and, under
  `DOUBLE_H`, by `capacity - 1`; the theorems assume `ValidCap`.
* The bytes of a key are below 128 (`getword` stores lower-cased alphanumeric
  characters), so the promotion of `char` to `int` in `htable_word_to_int` does
  not depend on the signedness of `char`.
* `get_prime` receives an `unsigned int` and works on a C `int`: the conversion
  is `to_int` (two's complement), and an increment at `INT_MAX`, which C leaves
  undefined, has no result (`none`).  The `while (1)` loop of `get_prime` is
  bounded by an explicit number of iterations; the theorems state which bounds
  are enough for it to return.
* The output functions return what they emit: `htable_print` the visitor calls,
  `htable_print_entire_htable` its records, `htable_print_stats` its snapshot
  lines (the fixed header and rule lines are left out).  The `int` products
  `100 * i` and `capacity * percent_full` of the statistics reporter have no
  result (`none`) when they do not fit an `int`; the values printed through
  `double`s are kept as the exact integers they are computed from.
* The tree of `tree.c` is an inductive type (`NULL` or a node).  The static
  variable `tree_type` set by `tree_new` is an argument of `tree_insert`; the
  fields a node gets from uninitialised memory are arguments too; a
  dereference of `NULL` has no result (`none`), and the theorems show that
  `tree_insert` meets none.  Only the sign of `strcmp` is used.
-/

namespace WordFreq

/-- The enum `hashing_t` of `htable.h`. -/
inductive hashing_t where
  | LINEAR_P
  | DOUBLE_H
  deriving DecidableEq, Repr

open hashing_t

/-- A C string: its bytes before the terminating NUL. -/
abbrev Key := List Nat

/-- The record `struct htablerec`. -/
structure htable where
  num_keys : Nat
  capacity : Nat
  freqs : List Nat
  stats : List Nat
  keys : List (Option Key)
  method : hashing_t
  deriving DecidableEq, Repr

/-- The loop of `htable_word_to_int`: `index = (*word++ + 31 * index)` on an
`unsigned int`, one byte at a time. -/
def htable_word_to_int_loop : Nat → Key → Nat
  | index, [] => index
  | index, b :: word => htable_word_to_int_loop ((b + 31 * index) % 2 ^ 32) word

/-- The function `htable_word_to_int`: the accumulator starts at 0. -/
def htable_word_to_int (word : Key) : Nat :=
  htable_word_to_int_loop 0 word

/-- The function `htable_step`: `1 + (i_key % (h->capacity - 1))`. -/
def htable_step (h : htable) (i_key : Nat) : Nat :=
  1 + i_key % (h.capacity - 1)

/-- The function `htable_new`: all frequencies and statistics 0, all keys
`NULL`, no key counted. -/
def htable_new (c : Nat) (t : hashing_t) : htable :=
  { num_keys := 0
    capacity := c
    freqs := List.replicate c 0
    stats := List.replicate c 0
    keys := List.replicate c none
    method := t }

/-- The index update shared by `htable_insert` and `htable_search`:
`if (method == LINEAR_P) index++; if (method == DOUBLE_H) index +=
htable_step(h, index); index %= capacity`. -/
def advance (h : htable) (index : Nat) : Nat :=
  let index1 := if h.method = LINEAR_P then index + 1 else index
  let index2 := if h.method = DOUBLE_H then index1 + htable_step h index1 else index1
  index2 % h.capacity

/-- The `for(;;)` loop of `htable_insert`.  The first argument bounds the
number of iterations; `htable_insert` passes `capacity`, which the loop never
exhausts (`htable_insert_loop_fuel`). -/
def htable_insert_loop (h : htable) (s : Key) : Nat → Nat → Nat → htable × Nat
  | 0, _, _ => (h, 0)
  | fuel + 1, index, collisions =>
    match h.keys.getD index none with
    | none =>
      ({ h with
          keys := h.keys.set index (some s)
          freqs := h.freqs.set index (h.freqs.getD index 0 + 1)
          stats := h.stats.set h.num_keys collisions
          num_keys := h.num_keys + 1 }, 1)
    | some k =>
      if k = s then
        ({ h with freqs := h.freqs.set index (h.freqs.getD index 0 + 1) },
          h.freqs.getD index 0 + 1)
      else if collisions + 1 = h.capacity then (h, 0)
      else htable_insert_loop h s fuel (advance h index) (collisions + 1)

/-- The function `htable_insert`: the table after the call and the value
returned. -/
def htable_insert (h : htable) (s : Key) : htable × Nat :=
  htable_insert_loop h s h.capacity (htable_word_to_int s % h.capacity) 0

/-- The `for(;;)` loop of `htable_search`, bounded like that of `htable_insert`
(`htable_search_loop_fuel`). -/
def htable_search_loop (h : htable) (word : Key) : Nat → Nat → Nat → Nat
  | 0, _, _ => 0
  | fuel + 1, index, collisions =>
    match h.keys.getD index none with
    | none => 0
    | some k =>
      if k = word then h.freqs.getD index 0
      else if collisions + 1 = h.capacity then 0
      else htable_search_loop h word fuel (advance h index) (collisions + 1)

/-- The function `htable_search`. -/
def htable_search (h : htable) (word : Key) : Nat :=
  htable_search_loop h word h.capacity (htable_word_to_int word % h.capacity) 0

/-- The slots examined by the loop of `htable_insert`, in order. -/
def insert_probes (h : htable) (s : Key) : Nat → Nat → Nat → List Nat
  | 0, _, _ => []
  | fuel + 1, index, collisions =>
    match h.keys.getD index none with
    | none => [index]
    | some k =>
      if k = s then [index]
      else if collisions + 1 = h.capacity then [index]
      else index :: insert_probes h s fuel (advance h index) (collisions + 1)

/-- The slots examined by the loop of `htable_search`, in order. -/
def search_probes (h : htable) (word : Key) : Nat → Nat → Nat → List Nat
  | 0, _, _ => []
  | fuel + 1, index, collisions =>
    match h.keys.getD index none with
    | none => [index]
    | some k =>
      if k = word then [index]
      else if collisions + 1 = h.capacity then [index]
      else index :: search_probes h word fuel (advance h index) (collisions + 1)

/-- The calls `htable_insert(h, k)` for the keys of a list, in order: the final
table and the values returned, in call order. -/
def run_inserts : htable → List Key → htable × List Nat
  | h, [] => (h, [])
  | h, k :: ks =>
    let r := htable_insert h k
    let rest := run_inserts r.1 ks
    (rest.1, r.2 :: rest.2)

/-- The table obtained from `htable_new(c, t)` by inserting the keys of a list. -/
def build (c : Nat) (t : hashing_t) (ks : List Key) : htable :=
  (run_inserts (htable_new c t) ks).1

/-- The values returned by the insertions of `build`. -/
def build_results (c : Nat) (t : hashing_t) (ks : List Key) : List Nat :=
  (run_inserts (htable_new c t) ks).2

/-- Capacities for which no division by zero occurs: at least one slot, and at
least two under double hashing (`htable_step` divides by `capacity - 1`). -/
def ValidCap (c : Nat) (t : hashing_t) : Prop :=
  1 ≤ c ∧ (t = DOUBLE_H → 2 ≤ c)

instance (c : Nat) (t : hashing_t) : Decidable (ValidCap c t) := by
  unfold ValidCap; infer_instance

/-- Tables reachable from `htable_new` by `htable_insert` calls. -/
def Reachable (h : htable) : Prop :=
  ∃ c t ks, ValidCap c t ∧ h = build c t ks

/-- Number of occupied slots (`keys[i] != NULL`). -/
def occupied (h : htable) : Nat :=
  h.keys.countP Option.isSome

/-- The slot first probed for a key. -/
def home (h : htable) (s : Key) : Nat :=
  htable_word_to_int s % h.capacity

/-- What the probe loop shared by `htable_insert` and `htable_search` ends
with: an empty slot (and the collisions counted so far), a slot holding the
key, or `capacity` collisions. -/
inductive Outcome where
  | empty (index collisions : Nat)
  | found (index : Nat)
  | full
  deriving DecidableEq, Repr

/-- The probe loop of `htable_insert` and `htable_search` with the action taken
at the end left out. -/
def probe_outcome (h : htable) (s : Key) : Nat → Nat → Nat → Outcome
  | 0, _, _ => Outcome.full
  | fuel + 1, index, collisions =>
    match h.keys.getD index none with
    | none => Outcome.empty index collisions
    | some k =>
      if k = s then Outcome.found index
      else if collisions + 1 = h.capacity then Outcome.full
      else probe_outcome h s fuel (advance h index) (collisions + 1)

/-- The table after a new key is stored in the empty slot `index` with
`collisions` logged. -/
def place (h : htable) (s : Key) (index collisions : Nat) : htable :=
  { h with
    keys := h.keys.set index (some s)
    freqs := h.freqs.set index (h.freqs.getD index 0 + 1)
    stats := h.stats.set h.num_keys collisions
    num_keys := h.num_keys + 1 }

/-- The table after the frequency of slot `index` is incremented. -/
def bump (h : htable) (index : Nat) : htable :=
  { h with freqs := h.freqs.set index (h.freqs.getD index 0 + 1) }

/-- A slot holds some key other than `s`. -/
def OtherAt (h : htable) (s : Key) (i : Nat) : Prop :=
  ∃ k, h.keys.getD i none = some k ∧ k ≠ s

/-- The key `s` is stored in some slot. -/
def Stored (h : htable) (s : Key) : Prop :=
  ∃ i, h.keys.getD i none = some s

/-- The invariant of reachable tables. -/
structure Inv (h : htable) : Prop where
  cap : ValidCap h.capacity h.method
  klen : h.keys.length = h.capacity
  flen : h.freqs.length = h.capacity
  slen : h.stats.length = h.capacity
  nk : h.num_keys = occupied h
  freq_pos : ∀ i k, h.keys.getD i none = some k → 1 ≤ h.freqs.getD i 0
  freq_zero : ∀ i, h.keys.getD i none = none → h.freqs.getD i 0 = 0
  path : ∀ i k, h.keys.getD i none = some k →
    ∃ d, d < h.capacity ∧ (advance h)^[d] (home h k) = i ∧
      ∀ j, j < d → OtherAt h k ((advance h)^[j] (home h k))

/-- The slots examined by a call `htable_insert(h, s)`, in order. -/
def htable_insert_probes (h : htable) (s : Key) : List Nat :=
  insert_probes h s h.capacity (htable_word_to_int s % h.capacity) 0

/-- The slots examined by a call `htable_search(h, word)`, in order. -/
def htable_search_probes (h : htable) (word : Key) : List Nat :=
  search_probes h word h.capacity (htable_word_to_int word % h.capacity) 0

/-- The hash as the specification words it: for the bytes `b_0 .. b_(m-1)` of a
key, the sum of `b_j * 31^(m-1-j)` reduced modulo `2^32`. -/
def spec_hash (word : Key) : Nat :=
  (Finset.sum (Finset.range word.length)
    (fun j => word.getD j 0 * 31 ^ (word.length - 1 - j))) % 2 ^ 32

/-- The loop `for (i = 1; i <= n; i++) if (n % i == 0) j++;` of `is_prime` on C
`int`s; the first argument bounds the number of iterations.  The increment
`i++` at `i == INT_MAX` is a signed overflow, which C leaves undefined: `none`. -/
def is_prime_loop (n : Int) : Nat → Int → Int → Option Int
  | 0, _, j => some j
  | fuel + 1, i, j =>
    if i ≤ n then
      if i = 2 ^ 31 - 1 then none
      else is_prime_loop n fuel (i + 1) (if n % i = 0 then j + 1 else j)
    else some j

/-- The function `is_prime` of `mylib.c`: 1 when `n` has exactly two divisors
among `1 .. n`, else 0.  The loop body runs `n` times, so `n` iterations are
allowed (none for `n <= 0`). -/
def is_prime (n : Int) : Option Int :=
  match is_prime_loop n n.toNat 1 0 with
  | none => none
  | some j => if j = 2 then some 1 else if j > 2 then some 0 else some 0

/-- The conversion `int i = n` of an `unsigned int`: values from `2^31` on wrap to
negative numbers (two's complement). -/
def to_int (n : Nat) : Int :=
  if n % 2 ^ 32 < 2 ^ 31 then ((n % 2 ^ 32 : Nat) : Int) else ((n % 2 ^ 32 : Nat) : Int) - 2 ^ 32

/-- The loop `while (1) { if (is_prime(i)) break; i++; }` of `get_prime`, with a
bound on the number of iterations; `none` when the bound is reached or when
`is_prime` has no defined result. -/
def get_prime_loop : Nat → Int → Option Int
  | 0, _ => none
  | fuel + 1, i =>
    match is_prime i with
    | none => none
    | some r => if r ≠ 0 then some i else get_prime_loop fuel (i + 1)

/-- The function `get_prime` of `mylib.c` on the `unsigned int` argument `n`. -/
def get_prime (fuel : Nat) (n : Nat) : Option Int :=
  get_prime_loop fuel (to_int n)

/-- The function `htable_print_entire_htable`: the records it prints after the
two header lines, one per loop iteration: position, `freqs[i]`, `stats[i]` and
the key when `keys[i] != NULL`. -/
def htable_print_entire_htable (h : htable) : List (Nat × Nat × Nat × Option Key) :=
  (List.range h.capacity).map (fun i =>
    match h.keys.getD i none with
    | some k => (i, h.freqs.getD i 0, h.stats.getD i 0, some k)
    | none => (i, h.freqs.getD i 0, h.stats.getD i 0, none))

/-- A value representable in a C `int` (32 bits). -/
def fits_int (x : Int) : Prop :=
  -2 ^ 31 ≤ x ∧ x < 2 ^ 31

instance (x : Int) : Decidable (fits_int x) := by
  unfold fits_int; infer_instance

/-- What one snapshot line of `print_stats_line` is computed from: the two `int`s
printed first, and the values of `at_home`, of the accumulator
`average_collisions` (a sum of `int`s held in a `double`) and of `max_collisions`
after the loop. -/
structure stats_line where
  percent_full : Int
  current_entries : Int
  at_home : Nat
  sum_collisions : Nat
  max_collisions : Nat
  deriving DecidableEq, Repr

/-- The loop `for (i = 0; i < current_entries; i++)` of `print_stats_line`: the
values of `at_home`, `max_collisions` and `average_collisions` after it. -/
def print_stats_scan (h : htable) (current_entries : Nat) : Nat × Nat × Nat :=
  (List.range current_entries).foldl
    (fun acc i =>
      (if h.stats.getD i 0 = 0 then acc.1 + 1 else acc.1,
        if h.stats.getD i 0 > acc.2.1 then h.stats.getD i 0 else acc.2.1,
        acc.2.2 + h.stats.getD i 0))
    (0, 0, 0)

/-- The function `print_stats_line`: the line printed, if any.  The product
`capacity * percent_full` is a signed `int` product; when it does not fit an
`int` the behaviour is undefined (`none`).  The division is C's, truncating. -/
def print_stats_line (h : htable) (percent_full : Int) : Option (List stats_line) :=
  if fits_int ((h.capacity : Int) * percent_full) then
    let current_entries := Int.tdiv ((h.capacity : Int) * percent_full) 100
    if 0 < current_entries ∧ current_entries ≤ (h.num_keys : Int) then
      some [{ percent_full := percent_full
              current_entries := current_entries
              at_home := (print_stats_scan h current_entries.toNat).1
              sum_collisions := (print_stats_scan h current_entries.toNat).2.2
              max_collisions := (print_stats_scan h current_entries.toNat).2.1 }]
    else some []
  else none

/-- The loop `for (i = 1; i <= num_stats; i++) print_stats_line(h, stream, 100 * i
/ num_stats)` of `htable_print_stats`; the first argument bounds the number of
iterations.  The product `100 * i` is a signed `int` product (`none` when it
does not fit). -/
def htable_print_stats_loop (h : htable) (num_stats : Int) :
    Nat → Int → Option (List stats_line)
  | 0, _ => some []
  | fuel + 1, i =>
    if i ≤ num_stats then
      if fits_int (100 * i) then
        match print_stats_line h (Int.tdiv (100 * i) num_stats),
          htable_print_stats_loop h num_stats fuel (i + 1) with
        | some l, some ls => some (l ++ ls)
        | _, _ => none
      else none
    else some []

/-- The function `htable_print_stats`: the snapshot lines printed between the
header and the closing rule, in order.  The loop body runs `num_stats` times
(not at all when `num_stats <= 0`). -/
def htable_print_stats (h : htable) (num_stats : Int) : Option (List stats_line) :=
  htable_print_stats_loop h num_stats num_stats.toNat 1

/-- The third value printed on a snapshot line, `at_home * 100.0 /
current_entries`, as an exact rational. -/
def printed_percent_at_home (l : stats_line) : ℚ :=
  (l.at_home : ℚ) * 100 / (l.current_entries : ℚ)

/-- The fourth value printed on a snapshot line, `average_collisions /
current_entries`, as an exact rational. -/
def printed_average_collisions (l : stats_line) : ℚ :=
  (l.sum_collisions : ℚ) / (l.current_entries : ℚ)

/-- The number of entries a snapshot covers as the specification words it:
`capacity * (100 * i / num_stats) / 100` with integer divisions. -/
def spec_current_entries (h : htable) (num_stats i : Nat) : Nat :=
  h.capacity * (100 * i / num_stats) / 100

/-- The snapshot line for a fill percentage and a number of entries. -/
def stats_line_of (h : htable) (percent_full current_entries : Nat) : stats_line :=
  { percent_full := (percent_full : Int)
    current_entries := (current_entries : Int)
    at_home := (print_stats_scan h current_entries).1
    sum_collisions := (print_stats_scan h current_entries).2.2
    max_collisions := (print_stats_scan h current_entries).2.1 }

/-- The enum `tree_t` of `tree.h`: the value kept in the static `tree_type`. -/
inductive tree_t where
  | BST
  | RBT
  deriving DecidableEq, Repr

/-- The enum `tree_colour` of `tree.h`. -/
inductive tree_colour where
  | RED
  | BLACK
  deriving DecidableEq, Repr

/-- A `tree`: `NULL` or a pointer to a `struct tree_node`.  The key of a node is
set in the call that allocates it, so a node always carries a key. -/
inductive tree where
  | NULL : tree
  | node (key : Key) (colour : tree_colour) (left right : tree) (frequency : Int) : tree
  deriving DecidableEq, Repr

open tree_t tree_colour

/-- The sign of `strcmp(a, b)` as -1, 0 or 1: the strings are compared byte by
byte, the end of a string (its NUL) coming before every byte of a key. -/
def strcmp : Key → Key → Int
  | [], [] => 0
  | [], _ :: _ => -1
  | _ :: _, [] => 1
  | a :: s, b :: t => if a < b then -1 else if b < a then 1 else strcmp s t

/-- The macro `IS_RED(x)`: `(NULL != (x)) && (RED == (x)->colour)`. -/
def IS_RED : tree → Bool
  | tree.NULL => false
  | tree.node _ c _ _ _ => decide (c = RED)

/-- The macro `IS_BLACK(x)`: `(NULL == (x)) || (BLACK == (x)->colour)`. -/
def IS_BLACK : tree → Bool
  | tree.NULL => true
  | tree.node _ c _ _ _ => decide (c = BLACK)

/-- The field `x->left`, read only behind a test that `x` is not `NULL`. -/
def tree.left : tree → tree
  | tree.NULL => tree.NULL
  | tree.node _ _ l _ _ => l

/-- The field `x->right`, read only behind a test that `x` is not `NULL`. -/
def tree.right : tree → tree
  | tree.NULL => tree.NULL
  | tree.node _ _ _ r _ => r

/-- The assignment `r->colour = c`; no result when `r` is `NULL`. -/
def set_colour (c : tree_colour) : tree → Option tree
  | tree.NULL => none
  | tree.node k _ l r f => some (tree.node k c l r f)

/-- The assignment `r->left = x`; no result when `r` is `NULL`. -/
def set_left (x : tree) : tree → Option tree
  | tree.NULL => none
  | tree.node k c _ r f => some (tree.node k c x r f)

/-- The assignment `r->right = x`; no result when `r` is `NULL`. -/
def set_right (x : tree) : tree → Option tree
  | tree.NULL => none
  | tree.node k c l _ f => some (tree.node k c l x f)

/-- The assignment `r->left->colour = c`. -/
def set_left_colour (c : tree_colour) (r : tree) : Option tree :=
  (set_colour c r.left).bind (fun l => set_left l r)

/-- The assignment `r->right->colour = c`. -/
def set_right_colour (c : tree_colour) (r : tree) : Option tree :=
  (set_colour c r.right).bind (fun x => set_right x r)

/-- The function `right_rotate`: `temp = r; r = temp->left; temp->left = r->right;
r->right = temp; return r`.  No result when `r` or `r->left` is `NULL`. -/
def right_rotate : tree → Option tree
  | tree.node k c (tree.node lk lc ll lr lf) r f =>
    some (tree.node lk lc ll (tree.node k c lr r f) lf)
  | _ => none

/-- The function `left_rotate`: `temp = r; r = temp->right; temp->right = r->left;
r->left = temp; return r`.  No result when `r` or `r->right` is `NULL`. -/
def left_rotate : tree → Option tree
  | tree.node k c l (tree.node rk rc rl rr rf) f =>
    some (tree.node rk rc (tree.node k c l rl f) rr rf)
  | _ => none

/-- The three assignments `r->colour = RED; r->left->colour = BLACK;
r->right->colour = BLACK` of `rbt_fix`. -/
def recolour (r : tree) : Option tree :=
  ((set_colour RED r).bind (set_left_colour BLACK)).bind (set_right_colour BLACK)

/-- The function `rbt_fix`.  No result when a `NULL` pointer is dereferenced. -/
def rbt_fix (r : tree) : Option tree :=
  if r = tree.NULL then none
  else if IS_RED r.left && IS_RED r.left.left then
    if IS_RED r.right then recolour r
    else ((right_rotate r).bind (set_colour BLACK)).bind (set_right_colour RED)
  else if IS_RED r.left && IS_RED r.left.right then
    if IS_RED r.right then recolour r
    else ((((left_rotate r.left).bind (fun l => set_left l r)).bind right_rotate).bind
      (set_colour BLACK)).bind (set_right_colour RED)
  else if IS_RED r.right && IS_RED r.right.left then
    if IS_RED r.left then recolour r
    else ((((right_rotate r.right).bind (fun x => set_right x r)).bind left_rotate).bind
      (set_colour BLACK)).bind (set_left_colour RED)
  else if IS_RED r.right && IS_RED r.right.right then
    if IS_RED r.left then
      ((set_colour RED r).bind (set_right_colour BLACK)).bind (set_left_colour BLACK)
    else ((left_rotate r).bind (set_colour BLACK)).bind (set_left_colour RED)
  else some r

/-- The end of `tree_insert`: `if (tree_type == RBT) b = rbt_fix(b); return b`. -/
def fix_if_rbt (tree_type : tree_t) (b : tree) : Option tree :=
  if tree_type = RBT then rbt_fix b else some b

/-- The function `tree_insert` for the value `tree_type` set by `tree_new`.  A
node comes from `emalloc`, which does not initialise it: `junk_colour` and
`junk_frequency` are what the fresh memory happens to hold in the fields
`colour` (overwritten with `RED` for an `RBT`) and `frequency` (never
initialised, then incremented).  A fresh node gets the key `str`, for which both
comparisons with `str` are 0, so no recursive call is made for it. -/
def tree_insert (tree_type : tree_t) (junk_colour : tree_colour) (junk_frequency : Int) :
    tree → Key → Option tree
  | tree.NULL, str =>
    fix_if_rbt tree_type
      (tree.node str (if tree_type = RBT then RED else junk_colour) tree.NULL tree.NULL
        (junk_frequency + 1))
  | tree.node key colour left right frequency, str =>
    match (if strcmp str key < 0 then tree_insert tree_type junk_colour junk_frequency left str
        else some left) with
    | none => none
    | some left1 =>
      match (if strcmp str key > 0 then
          tree_insert tree_type junk_colour junk_frequency right str else some right) with
      | none => none
      | some right1 =>
        fix_if_rbt tree_type
          (tree.node key colour left1 right1
            (if strcmp key str = 0 then frequency + 1 else frequency))

/-- The function `tree_search`. -/
def tree_search : tree → Key → Int
  | tree.NULL, _ => 0
  | tree.node key _ left right _, str =>
    if strcmp str key = 0 then 1
    else if strcmp str key < 0 then tree_search left str
    else if strcmp str key > 0 then tree_search right str
    else 0

/-- The function `tree_new`: it records the type and returns `NULL`. -/
def tree_new (_type : tree_t) : tree :=
  tree.NULL

/-- A sequence of `tree_insert` calls, each with the contents of the memory a
fresh node would get and its key, the result of each call being passed to the
next. -/
def tree_insert_all (tree_type : tree_t) : tree → List (tree_colour × Int × Key) → Option tree
  | b, [] => some b
  | b, call :: rest =>
    match tree_insert tree_type call.1 call.2.1 b call.2.2 with
    | none => none
    | some b1 => tree_insert_all tree_type b1 rest

/-- The tree built from `tree_new(type)` by a sequence of `tree_insert` calls. -/
def tree_build (tree_type : tree_t) (calls : List (tree_colour × Int × Key)) : Option tree :=
  tree_insert_all tree_type (tree_new tree_type) calls

/-- The keys of a tree in in-order (left subtree, node, right subtree). -/
def inorder_keys : tree → List Key
  | tree.NULL => []
  | tree.node k _ l r _ => inorder_keys l ++ k :: inorder_keys r

/-- A binary search tree on keys: at every node the keys of the left subtree
are smaller and those of the right subtree larger in `strcmp` order. -/
def is_bst : tree → Prop
  | tree.NULL => True
  | tree.node k _ l r _ =>
    (∀ x, x ∈ inorder_keys l → strcmp x k < 0) ∧
    (∀ x, x ∈ inorder_keys r → strcmp k x < 0) ∧ is_bst l ∧ is_bst r

/-- No red node has a red child. -/
def no_red_red : tree → Bool
  | tree.NULL => true
  | tree.node _ c l r _ =>
    (!(decide (c = RED) && (IS_RED l || IS_RED r))) && no_red_red l && no_red_red r

/-- The number of black nodes on every path from the root to a `NULL` leaf, when
all paths agree. -/
def black_height : tree → Option Nat
  | tree.NULL => some 0
  | tree.node _ c l r _ =>
    match black_height l, black_height r with
    | some n, some m => if n = m then some (n + (if c = BLACK then 1 else 0)) else none
    | _, _ => none

/-- A red node whose subtrees have no red node with a red child and whose
children are not both red: the only red-red pair it can hold is the node with
one child. -/
def almost_red : tree → Bool
  | tree.NULL => false
  | tree.node _ c l r _ =>
    decide (c = RED) && no_red_red l && no_red_red r && !(IS_RED l && IS_RED r)

/-- The subtrees of the root have no red node with a red child. -/
def root_children_proper : tree → Bool
  | tree.NULL => true
  | tree.node _ _ l r _ => no_red_red l && no_red_red r

/-! ## Lists as arrays -/

theorem getD_set_eq {α : Type} (l : List α) (i : Nat) (a d : α) (hi : i < l.length) :
    (l.set i a).getD i d = a := by
  simp [List.getD_eq_getElem?_getD, List.getElem?_set, hi]

theorem getD_set_ne {α : Type} (l : List α) (i j : Nat) (a d : α) (hij : i ≠ j) :
    (l.set i a).getD j d = l.getD j d := by
  simp [List.getD_eq_getElem?_getD, List.getElem?_set, hij]

theorem getD_replicate_self {α : Type} (n i : Nat) (a : α) :
    (List.replicate n a).getD i a = a := by
  simp only [List.getD_eq_getElem?_getD, List.getElem?_replicate]
  split <;> rfl

theorem lt_length_of_getD_some (l : List (Option Key)) (i : Nat) (k : Key)
    (hk : l.getD i none = some k) : i < l.length := by
  by_contra hlt
  rw [List.getD_eq_getElem?_getD, List.getElem?_eq_none (by omega)] at hk
  simp at hk

theorem countP_set_none (l : List (Option Key)) (i : Nat) (s : Key) (hi : i < l.length)
    (hnone : l.getD i none = none) :
    (l.set i (some s)).countP Option.isSome = l.countP Option.isSome + 1 := by
  induction l generalizing i with
  | nil => simp at hi
  | cons a l ih =>
    cases i with
    | zero =>
      simp only [List.getD_cons_zero] at hnone
      subst hnone
      simp [List.countP_cons]
    | succ i =>
      simp only [List.getD_cons_succ] at hnone
      simp only [List.length_cons, Nat.add_lt_add_iff_right] at hi
      simp only [List.set_cons_succ, List.countP_cons, ih i hi hnone]
      omega

theorem countP_lt_of_none (l : List (Option Key)) (i : Nat) (hi : i < l.length)
    (hnone : l.getD i none = none) : l.countP Option.isSome < l.length := by
  induction l generalizing i with
  | nil => simp at hi
  | cons a l ih =>
    cases i with
    | zero =>
      simp only [List.getD_cons_zero] at hnone
      subst hnone
      have := List.countP_le_length (Option.isSome (α := Key)) (l := l)
      simp [List.countP_cons]
      omega
    | succ i =>
      simp only [List.getD_cons_succ] at hnone
      simp only [List.length_cons, Nat.add_lt_add_iff_right] at hi
      have := ih i hi hnone
      simp only [List.countP_cons, List.length_cons]
      split <;> omega

theorem all_some_of_countP_eq (l : List (Option Key)) (h : l.countP Option.isSome = l.length)
    (i : Nat) (hi : i < l.length) : ∃ k, l.getD i none = some k := by
  cases hk : l.getD i none with
  | none =>
    have := countP_lt_of_none l i hi hk
    omega
  | some k => exact ⟨k, rfl⟩

/-! ## The probe loop -/

theorem insert_loop_eq (h : htable) (s : Key) (fuel index collisions : Nat) :
    htable_insert_loop h s fuel index collisions =
      match probe_outcome h s fuel index collisions with
      | Outcome.empty e c => (place h s e c, 1)
      | Outcome.found i => (bump h i, h.freqs.getD i 0 + 1)
      | Outcome.full => (h, 0) := by
  induction fuel generalizing index collisions with
  | zero => rfl
  | succ fuel ih =>
    simp only [htable_insert_loop, probe_outcome]
    cases hk : h.keys.getD index none with
    | none => rfl
    | some k =>
      simp only
      by_cases hks : k = s
      · simp only [hks, if_true]; rfl
      · simp only [hks, if_false]
        by_cases hc : collisions + 1 = h.capacity
        · simp only [hc, if_true]
        · simp only [hc, if_false]
          exact ih _ _

theorem search_loop_eq (h : htable) (s : Key) (fuel index collisions : Nat) :
    htable_search_loop h s fuel index collisions =
      match probe_outcome h s fuel index collisions with
      | Outcome.empty _ _ => 0
      | Outcome.found i => h.freqs.getD i 0
      | Outcome.full => 0 := by
  induction fuel generalizing index collisions with
  | zero => rfl
  | succ fuel ih =>
    simp only [htable_search_loop, probe_outcome]
    cases hk : h.keys.getD index none with
    | none => rfl
    | some k =>
      simp only
      by_cases hks : k = s
      · simp only [hks, if_true]
      · simp only [hks, if_false]
        by_cases hc : collisions + 1 = h.capacity
        · simp only [hc, if_true]
        · simp only [hc, if_false]
          exact ih _ _

theorem insert_eq (h : htable) (s : Key) :
    htable_insert h s =
      match probe_outcome h s h.capacity (home h s) 0 with
      | Outcome.empty e c => (place h s e c, 1)
      | Outcome.found i => (bump h i, h.freqs.getD i 0 + 1)
      | Outcome.full => (h, 0) :=
  insert_loop_eq h s h.capacity (home h s) 0

/-- The probe loop leaves through one of its `return`s before the iterations
allowed to it run out: allowing more changes nothing. -/
theorem probe_outcome_fuel (h : htable) (s : Key) (fuel extra index collisions : Nat)
    (hfuel : collisions + fuel = h.capacity) (hpos : 0 < fuel) :
    probe_outcome h s (fuel + extra) index collisions =
      probe_outcome h s fuel index collisions := by
  induction fuel generalizing index collisions with
  | zero => omega
  | succ fuel ih =>
    rw [Nat.add_right_comm]
    simp only [probe_outcome]
    cases h.keys.getD index none with
    | none => rfl
    | some k =>
      simp only
      by_cases hks : k = s
      · simp only [hks, if_true]
      · simp only [hks, if_false]
        by_cases hc : collisions + 1 = h.capacity
        · simp only [hc, if_true]
        · simp only [hc, if_false]
          exact ih _ _ (by omega) (by omega)

/-- The loop of `htable_insert` on a table with at least one slot does not use
up the `capacity` iterations allowed to it. -/
theorem htable_insert_loop_fuel (h : htable) (s : Key) (hc : 0 < h.capacity) (extra : Nat) :
    htable_insert_loop h s (h.capacity + extra) (htable_word_to_int s % h.capacity) 0 =
      htable_insert h s := by
  rw [htable_insert, insert_loop_eq, insert_loop_eq,
    probe_outcome_fuel h s h.capacity extra _ 0 (by omega) hc]

/-- The loop of `htable_search` on a table with at least one slot does not use
up the `capacity` iterations allowed to it. -/
theorem htable_search_loop_fuel (h : htable) (s : Key) (hc : 0 < h.capacity) (extra : Nat) :
    htable_search_loop h s (h.capacity + extra) (htable_word_to_int s % h.capacity) 0 =
      htable_search h s := by
  rw [htable_search, search_loop_eq, search_loop_eq,
    probe_outcome_fuel h s h.capacity extra _ 0 (by omega) hc]

/-- What the probe loop returns, read backwards: each outcome tells which slots
were examined and what they held. -/
theorem probe_outcome_spec (h : htable) (s : Key) (fuel index collisions : Nat)
    (hfuel : collisions + fuel = h.capacity) :
    (∃ d, d < fuel ∧ (∀ j, j < d → OtherAt h s ((advance h)^[j] index)) ∧
        h.keys.getD ((advance h)^[d] index) none = none ∧
        probe_outcome h s fuel index collisions =
          Outcome.empty ((advance h)^[d] index) (collisions + d)) ∨
    (∃ d, d < fuel ∧ (∀ j, j < d → OtherAt h s ((advance h)^[j] index)) ∧
        h.keys.getD ((advance h)^[d] index) none = some s ∧
        probe_outcome h s fuel index collisions = Outcome.found ((advance h)^[d] index)) ∨
    ((∀ j, j < fuel → OtherAt h s ((advance h)^[j] index)) ∧
        probe_outcome h s fuel index collisions = Outcome.full) := by
  induction fuel generalizing index collisions with
  | zero =>
    right; right
    exact ⟨fun j hj => absurd hj (Nat.not_lt_zero j), rfl⟩
  | succ fuel ih =>
    simp only [probe_outcome]
    cases hk : h.keys.getD index none with
    | none =>
      left
      exact ⟨0, Nat.succ_pos _, fun j hj => absurd hj (Nat.not_lt_zero j), hk, rfl⟩
    | some k =>
      simp only
      by_cases hks : k = s
      · right; left
        subst hks
        exact ⟨0, Nat.succ_pos _, fun j hj => absurd hj (Nat.not_lt_zero j), hk, by simp⟩
      · simp only [hks, if_false]
        have hother : OtherAt h s index := ⟨k, hk, hks⟩
        have hstep : ∀ d, (∀ j, j < d → OtherAt h s ((advance h)^[j] (advance h index))) →
            ∀ j, j < d + 1 → OtherAt h s ((advance h)^[j] index) := by
          intro d hd j hj
          cases j with
          | zero => exact hother
          | succ j => exact hd j (by omega)
        by_cases hc : collisions + 1 = h.capacity
        · simp only [hc, if_true]
          right; right
          have hf : fuel = 0 := by omega
          subst hf
          refine ⟨?_, trivial⟩
          intro j hj
          have hj0 : j = 0 := by omega
          subst hj0
          exact hother
        · simp only [hc, if_false]
          rcases ih (advance h index) (collisions + 1) (by omega) with
            ⟨d, hd, hpath, hnone, hout⟩ | ⟨d, hd, hpath, hsome, hout⟩ | ⟨hpath, hout⟩
          · left
            refine ⟨d + 1, by omega, hstep d hpath, hnone, ?_⟩
            rw [hout]
            simp only [Function.iterate_succ, Function.comp_apply]
            congr 1
            omega
          · right; left
            exact ⟨d + 1, by omega, hstep d hpath, hsome, hout⟩
          · right; right
            exact ⟨hstep fuel hpath, hout⟩

theorem OtherAt.ne_none {h : htable} {s : Key} {i : Nat} (ho : OtherAt h s i) :
    h.keys.getD i none ≠ none := by
  rcases ho with ⟨k, hk, _⟩
  rw [hk]
  exact Option.some_ne_none k

theorem OtherAt.ne_some {h : htable} {s : Key} {i : Nat} (ho : OtherAt h s i) :
    h.keys.getD i none ≠ some s := by
  rcases ho with ⟨k, hk, hne⟩
  rw [hk]
  intro hc
  exact hne (Option.some.inj hc)

/-- The outcome `empty e c`: slot `e` is empty, it is the slot reached after `c`
steps from the home slot, and the `c` slots before it hold other keys. -/
theorem outcome_empty (h : htable) (s : Key) (e c : Nat)
    (ho : probe_outcome h s h.capacity (home h s) 0 = Outcome.empty e c) :
    c < h.capacity ∧ (advance h)^[c] (home h s) = e ∧ h.keys.getD e none = none ∧
      ∀ j, j < c → OtherAt h s ((advance h)^[j] (home h s)) := by
  rcases probe_outcome_spec h s h.capacity (home h s) 0 (by omega) with
    ⟨d, hd, hpath, hnone, hout⟩ | ⟨d, hd, hpath, hsome, hout⟩ | ⟨hpath, hout⟩
  · rw [hout] at ho
    injection ho with h1 h2
    simp only [Nat.zero_add] at h2
    subst h2
    subst h1
    exact ⟨hd, rfl, hnone, hpath⟩
  · rw [hout] at ho; cases ho
  · rw [hout] at ho; cases ho

/-- The outcome `found i`: slot `i` holds the key and is reached from the home
slot through slots holding other keys. -/
theorem outcome_found (h : htable) (s : Key) (i : Nat)
    (ho : probe_outcome h s h.capacity (home h s) 0 = Outcome.found i) :
    h.keys.getD i none = some s ∧
      ∃ d, d < h.capacity ∧ (advance h)^[d] (home h s) = i ∧
        ∀ j, j < d → OtherAt h s ((advance h)^[j] (home h s)) := by
  rcases probe_outcome_spec h s h.capacity (home h s) 0 (by omega) with
    ⟨d, hd, hpath, hnone, hout⟩ | ⟨d, hd, hpath, hsome, hout⟩ | ⟨hpath, hout⟩
  · rw [hout] at ho; cases ho
  · rw [hout] at ho
    injection ho with h1
    subst h1
    exact ⟨hsome, d, hd, rfl, hpath⟩
  · rw [hout] at ho; cases ho

/-- A key reached from its home slot through slots holding other keys is the
one the probe loop finds. -/
theorem outcome_of_path (h : htable) (s : Key) (d : Nat) (hd : d < h.capacity)
    (hsome : h.keys.getD ((advance h)^[d] (home h s)) none = some s)
    (hpath : ∀ j, j < d → OtherAt h s ((advance h)^[j] (home h s))) :
    probe_outcome h s h.capacity (home h s) 0 = Outcome.found ((advance h)^[d] (home h s)) := by
  rcases probe_outcome_spec h s h.capacity (home h s) 0 (by omega) with
    ⟨d2, hd2, hpath2, hnone2, hout⟩ | ⟨d2, hd2, hpath2, hsome2, hout⟩ | ⟨hpath2, hout⟩
  · exfalso
    rcases Nat.lt_trichotomy d2 d with hlt | heq | hgt
    · exact (hpath d2 hlt).ne_none hnone2
    · subst heq; rw [hsome] at hnone2; cases hnone2
    · exact (hpath2 d hgt).ne_some hsome
  · rcases Nat.lt_trichotomy d2 d with hlt | heq | hgt
    · exact absurd hsome2 (hpath d2 hlt).ne_some
    · subst heq; exact hout
    · exact absurd hsome (hpath2 d hgt).ne_some
  · exact absurd hsome (hpath2 d hd).ne_some

/-- In a table satisfying the invariant the probe loop finds every stored key,
in the slot that holds it. -/
theorem outcome_of_stored (h : htable) (hinv : Inv h) (s : Key) (i : Nat)
    (hs : h.keys.getD i none = some s) :
    probe_outcome h s h.capacity (home h s) 0 = Outcome.found i := by
  rcases hinv.path i s hs with ⟨d, hd, hi, hpath⟩
  have := outcome_of_path h s d hd (by rw [hi]; exact hs) hpath
  rw [hi] at this
  exact this

/-- In a table satisfying the invariant a key is stored in at most one slot. -/
theorem slot_unique (h : htable) (hinv : Inv h) (s : Key) (i j : Nat)
    (hi : h.keys.getD i none = some s) (hj : h.keys.getD j none = some s) : i = j := by
  have h1 := outcome_of_stored h hinv s i hi
  have h2 := outcome_of_stored h hinv s j hj
  rw [h1] at h2
  injection h2

theorem advance_lt (h : htable) (hc : 0 < h.capacity) (i : Nat) : advance h i < h.capacity :=
  Nat.mod_lt _ hc

theorem home_lt (h : htable) (hc : 0 < h.capacity) (s : Key) : home h s < h.capacity :=
  Nat.mod_lt _ hc

theorem probe_lt (h : htable) (hc : 0 < h.capacity) (s : Key) (j : Nat) :
    (advance h)^[j] (home h s) < h.capacity := by
  cases j with
  | zero => exact home_lt h hc s
  | succ j =>
    rw [Function.iterate_succ_apply']
    exact advance_lt h hc _

theorem inv_new (c : Nat) (t : hashing_t) (hv : ValidCap c t) : Inv (htable_new c t) where
  cap := hv
  klen := by simp [htable_new]
  flen := by simp [htable_new]
  slen := by simp [htable_new]
  nk := by
    simp only [htable_new, occupied]
    rw [List.countP_eq_zero.mpr]
    intro a ha
    rw [List.eq_of_mem_replicate ha]
    simp
  freq_pos := by
    intro i k hk
    simp only [htable_new] at hk
    rw [getD_replicate_self] at hk
    cases hk
  freq_zero := by
    intro i _
    simp only [htable_new]
    exact getD_replicate_self c i 0
  path := by
    intro i k hk
    simp only [htable_new] at hk
    rw [getD_replicate_self] at hk
    cases hk

theorem inv_bump (h : htable) (hinv : Inv h) (i : Nat) (s : Key)
    (hs : h.keys.getD i none = some s) : Inv (bump h i) where
  cap := hinv.cap
  klen := hinv.klen
  flen := by simp [bump, hinv.flen]
  slen := hinv.slen
  nk := hinv.nk
  freq_pos := by
    intro j k hk
    have hj : j < h.freqs.length := by
      rw [hinv.flen, ← hinv.klen]
      exact lt_length_of_getD_some h.keys j k hk
    have hpos := hinv.freq_pos j k hk
    by_cases hij : i = j
    · subst hij
      simp only [bump]
      rw [getD_set_eq _ _ _ _ hj]
      omega
    · simp only [bump]
      rw [getD_set_ne _ _ _ _ _ hij]
      exact hpos
  freq_zero := by
    intro j hk
    have hz := hinv.freq_zero j hk
    by_cases hij : i = j
    · subst hij
      have hk2 : h.keys.getD i none = none := hk
      rw [hs] at hk2
      cases hk2
    · simp only [bump]
      rw [getD_set_ne _ _ _ _ _ hij]
      exact hz
  path := hinv.path

theorem otherAt_place (h : htable) (s k : Key) (e c x : Nat)
    (hnone : h.keys.getD e none = none) (ho : OtherAt h k x) : OtherAt (place h s e c) k x := by
  rcases ho with ⟨k2, hk2, hne⟩
  have hxe : e ≠ x := by
    intro hex
    subst hex
    rw [hnone] at hk2
    cases hk2
  refine ⟨k2, ?_, hne⟩
  simp only [place]
  rw [getD_set_ne _ _ _ _ _ hxe]
  exact hk2

theorem inv_place (h : htable) (hinv : Inv h) (s : Key) (e c : Nat)
    (ho : probe_outcome h s h.capacity (home h s) 0 = Outcome.empty e c) :
    Inv (place h s e c) := by
  obtain ⟨hc, he, hnone, hpath⟩ := outcome_empty h s e c ho
  have hcap : 0 < h.capacity := hinv.cap.1
  have helt : e < h.capacity := by
    rw [← he]
    exact probe_lt h hcap s c
  have hek : e < h.keys.length := by rw [hinv.klen]; exact helt
  have hef : e < h.freqs.length := by rw [hinv.flen]; exact helt
  have hkeys_e : (place h s e c).keys.getD e none = some s := by
    simp only [place]
    exact getD_set_eq _ _ _ _ hek
  have hkeys_ne : ∀ i, e ≠ i → (place h s e c).keys.getD i none = h.keys.getD i none := by
    intro i hi
    simp only [place]
    exact getD_set_ne _ _ _ _ _ hi
  have hfreq_e : (place h s e c).freqs.getD e 0 = h.freqs.getD e 0 + 1 := by
    simp only [place]
    exact getD_set_eq _ _ _ _ hef
  have hfreq_ne : ∀ i, e ≠ i → (place h s e c).freqs.getD i 0 = h.freqs.getD i 0 := by
    intro i hi
    simp only [place]
    exact getD_set_ne _ _ _ _ _ hi
  refine ⟨hinv.cap, ?_, ?_, ?_, ?_, ?_, ?_, ?_⟩
  · simp [place, hinv.klen]
  · simp [place, hinv.flen]
  · simp [place, hinv.slen]
  · show h.num_keys + 1 = (h.keys.set e (some s)).countP Option.isSome
    rw [countP_set_none h.keys e s hek hnone, hinv.nk]
    rfl
  · intro i k hk
    by_cases hi : e = i
    · subst hi
      rw [hfreq_e]
      omega
    · rw [hfreq_ne i hi]
      rw [hkeys_ne i hi] at hk
      exact hinv.freq_pos i k hk
  · intro i hk
    by_cases hi : e = i
    · subst hi
      rw [hkeys_e] at hk
      cases hk
    · rw [hfreq_ne i hi]
      rw [hkeys_ne i hi] at hk
      exact hinv.freq_zero i hk
  · intro i k hk
    by_cases hi : e = i
    · subst hi
      rw [hkeys_e] at hk
      injection hk with hk
      subst hk
      exact ⟨c, hc, he, fun j hj => otherAt_place h s s e c _ hnone (hpath j hj)⟩
    · rw [hkeys_ne i hi] at hk
      rcases hinv.path i k hk with ⟨d, hd, hdi, hp⟩
      exact ⟨d, hd, hdi, fun j hj => otherAt_place h s k e c _ hnone (hp j hj)⟩

theorem inv_insert (h : htable) (hinv : Inv h) (s : Key) : Inv (htable_insert h s).1 := by
  rw [insert_eq]
  cases ho : probe_outcome h s h.capacity (home h s) 0 with
  | empty e c => exact inv_place h hinv s e c ho
  | found i => exact inv_bump h hinv i s (outcome_found h s i ho).1
  | full => exact hinv

theorem inv_run (h : htable) (hinv : Inv h) (ks : List Key) : Inv (run_inserts h ks).1 := by
  induction ks generalizing h with
  | nil => exact hinv
  | cons k ks ih => exact ih _ (inv_insert h hinv k)

theorem inv_build (c : Nat) (t : hashing_t) (hv : ValidCap c t) (ks : List Key) :
    Inv (build c t ks) :=
  inv_run _ (inv_new c t hv) ks

theorem inv_of_reachable (h : htable) (hr : Reachable h) : Inv h := by
  rcases hr with ⟨c, t, ks, hv, rfl⟩
  exact inv_build c t hv ks

theorem place_keys_self (h : htable) (s : Key) (e c : Nat) (he : e < h.keys.length) :
    (place h s e c).keys.getD e none = some s :=
  getD_set_eq _ _ _ _ he

theorem place_keys_ne (h : htable) (s : Key) (e c i : Nat) (hi : e ≠ i) :
    (place h s e c).keys.getD i none = h.keys.getD i none :=
  getD_set_ne _ _ _ _ _ hi

theorem empty_slot_lt (h : htable) (hinv : Inv h) (s : Key) (e c : Nat)
    (ho : probe_outcome h s h.capacity (home h s) 0 = Outcome.empty e c) : e < h.capacity := by
  rw [← (outcome_empty h s e c ho).2.1]
  exact probe_lt h hinv.cap.1 s c

/-- The three ways a call `htable_insert(h, s)` ends on a table satisfying the
invariant: the key is stored in slot `i` and its frequency is incremented; the
key is not stored and is placed in an empty slot; the key is not stored and the
call returns 0 leaving the table as it is. -/
theorem insert_cases (h : htable) (hinv : Inv h) (s : Key) :
    (∃ i, h.keys.getD i none = some s ∧
        htable_insert h s = (bump h i, h.freqs.getD i 0 + 1)) ∨
    (∃ e c, ¬ Stored h s ∧ probe_outcome h s h.capacity (home h s) 0 = Outcome.empty e c ∧
        htable_insert h s = (place h s e c, 1)) ∨
    (¬ Stored h s ∧ probe_outcome h s h.capacity (home h s) 0 = Outcome.full ∧
        htable_insert h s = (h, 0)) := by
  have hns : ∀ o, probe_outcome h s h.capacity (home h s) 0 = o →
      (∀ i, o ≠ Outcome.found i) → ¬ Stored h s := by
    intro o ho hne hst
    rcases hst with ⟨i, hi⟩
    rw [outcome_of_stored h hinv s i hi] at ho
    exact hne i ho.symm
  cases ho : probe_outcome h s h.capacity (home h s) 0 with
  | empty e c =>
    right; left
    refine ⟨e, c, hns _ ho (fun i hc => by cases hc), rfl, ?_⟩
    rw [insert_eq, ho]
  | found i =>
    left
    refine ⟨i, (outcome_found h s i ho).1, ?_⟩
    rw [insert_eq, ho]
  | full =>
    right; right
    refine ⟨hns _ ho (fun i hc => by cases hc), rfl, ?_⟩
    rw [insert_eq, ho]

/-- The key count after a run of insertions: the count before plus the number of
calls that returned 1, which are the calls that stored a new key and logged its
collisions. -/
theorem num_keys_run (h : htable) (hinv : Inv h) (ks : List Key) :
    (run_inserts h ks).1.num_keys = h.num_keys + (run_inserts h ks).2.count 1 := by
  induction ks generalizing h with
  | nil => simp [run_inserts]
  | cons s ks ih =>
    show (run_inserts (htable_insert h s).1 ks).1.num_keys =
      h.num_keys + ((htable_insert h s).2 :: (run_inserts (htable_insert h s).1 ks).2).count 1
    rw [ih _ (inv_insert h hinv s), List.count_cons]
    rcases insert_cases h hinv s with ⟨i, hi, heq⟩ | ⟨e, c, _, ho, heq⟩ | ⟨_, _, heq⟩
    · have hpos := hinv.freq_pos i s hi
      rw [heq]
      generalize h.freqs.getD i 0 = f at hpos
      have hne : ¬ (f = 0) := by omega
      simp [bump, hne]
    · rw [heq]
      simp [place]
      omega
    · rw [heq]
      simp

/-- C5: in a table built from `htable_new(c, t)` by insertions, `num_keys` is the
number of occupied slots and the number of collision-log entries written (one
per call that returned 1), it is at most `capacity`, and whenever a slot of the
table is empty, so that a further call can store a key, `num_keys` is below the
length `capacity` of `stats`: the write `stats[num_keys]` is in bounds. -/
theorem C5_num_keys_invariant (c : Nat) (t : hashing_t) (hv : ValidCap c t) (ks : List Key) :
    (build c t ks).num_keys = occupied (build c t ks) ∧
    (build c t ks).num_keys = (build_results c t ks).count 1 ∧
    (build c t ks).num_keys ≤ (build c t ks).capacity ∧
    (build c t ks).capacity = c ∧
    (build c t ks).stats.length = (build c t ks).capacity ∧
    (∀ e, e < (build c t ks).capacity → (build c t ks).keys.getD e none = none →
      (build c t ks).num_keys < (build c t ks).stats.length) := by
  have hinv := inv_build c t hv ks
  have hcap : ∀ (h : htable) (l : List Key), (run_inserts h l).1.capacity = h.capacity := by
    intro h l
    induction l generalizing h with
    | nil => rfl
    | cons s l ih =>
      show (run_inserts (htable_insert h s).1 l).1.capacity = _
      rw [ih, insert_eq]
      cases probe_outcome h s h.capacity (home h s) 0 <;> rfl
  refine ⟨hinv.nk, ?_, ?_, hcap _ ks, hinv.slen, ?_⟩
  · simp only [build, build_results]
    rw [num_keys_run _ (inv_new c t hv) ks]
    simp [htable_new]
  · rw [hinv.nk, ← hinv.klen]
    exact List.countP_le_length _
  · intro e he hnone
    rw [hinv.slen, hinv.nk, ← hinv.klen]
    exact countP_lt_of_none _ e (by rw [hinv.klen]; exact he) hnone

theorem C5_num_keys_invariant_witness :
    ValidCap 5 DOUBLE_H ∧
    (build 5 DOUBLE_H [[100], [101], [97], [98], [105], [100]]).num_keys = 4 ∧
    (build 5 DOUBLE_H [[100], [101], [97], [98], [105], [100]]).num_keys ≤ 5 :=
  ⟨by decide, by decide,
    (C5_num_keys_invariant 5 DOUBLE_H (by decide)
      [[100], [101], [97], [98], [105], [100]]).2.2.2.1 ▸
    (C5_num_keys_invariant 5 DOUBLE_H (by decide)
      [[100], [101], [97], [98], [105], [100]]).2.2.1⟩

/-- C6: on a reachable table whose `capacity` slots are all occupied
(`num_keys == capacity`), inserting a key that is not stored returns 0 and
leaves the whole table as it is, under either strategy. -/
theorem C6_full_table_rejects (h : htable) (hr : Reachable h)
    (hfull : h.num_keys = h.capacity) (k : Key) (hk : ¬ Stored h k) :
    htable_insert h k = (h, 0) := by
  have hinv := inv_of_reachable h hr
  rcases insert_cases h hinv k with ⟨i, hi, heq⟩ | ⟨e, c, _, ho, heq⟩ | ⟨_, _, heq⟩
  · exact absurd ⟨i, hi⟩ hk
  · exfalso
    have helt := empty_slot_lt h hinv k e c ho
    have hnone := (outcome_empty h k e c ho).2.2.1
    have hcount : h.keys.countP Option.isSome = h.keys.length := by
      rw [hinv.klen, ← hfull, hinv.nk]
      rfl
    rcases all_some_of_countP_eq h.keys hcount e (by rw [hinv.klen]; exact helt) with ⟨k2, hk2⟩
    rw [hnone] at hk2
    cases hk2
  · exact heq

theorem C6_full_table_rejects_witness :
    Reachable (build 2 DOUBLE_H [[97], [98]]) ∧
    (build 2 DOUBLE_H [[97], [98]]).num_keys = (build 2 DOUBLE_H [[97], [98]]).capacity ∧
    ¬ Stored (build 2 DOUBLE_H [[97], [98]]) [99] ∧
    htable_insert (build 2 DOUBLE_H [[97], [98]]) [99] = (build 2 DOUBLE_H [[97], [98]], 0) :=
  have hns : ¬ Stored (build 2 DOUBLE_H [[97], [98]]) [99] := by
    rintro ⟨i, hi⟩
    have hlt := lt_length_of_getD_some _ i _ hi
    have h2 : i < 2 := hlt
    interval_cases i <;> revert hi <;> decide
  ⟨⟨2, DOUBLE_H, [[97], [98]], by decide, rfl⟩, by decide, hns,
    C6_full_table_rejects (build 2 DOUBLE_H [[97], [98]])
      ⟨2, DOUBLE_H, [[97], [98]], by decide, rfl⟩ (by decide) [99] hns⟩

/-! ## Full tables under linear probing -/

theorem advance_linear (h : htable) (hm : h.method = LINEAR_P) (i : Nat) :
    advance h i = (i + 1) % h.capacity := by
  simp [advance, hm]

theorem probe_linear (h : htable) (hm : h.method = LINEAR_P) (i j : Nat) :
    (advance h)^[j] i % h.capacity = (i + j) % h.capacity := by
  induction j with
  | zero => rfl
  | succ j ih =>
    rw [Function.iterate_succ_apply', advance_linear h hm, Nat.mod_mod, Nat.add_mod, ih,
      ← Nat.add_mod]
    rfl

/-- C7 (the code at the failing input): under `DOUBLE_H` with capacity 5 the keys
"d", "e", "a", "b" occupy slots 0, 1, 2, 3; inserting "i" (home slot 0) then
examines slots 0, 1, 3, 2, 0 and returns 0 although slot 4 is empty and
`num_keys` is 4, not 5. -/
theorem C7_double_hash_full_with_empty_slot :
    ValidCap 5 DOUBLE_H ∧
    (htable_insert (build 5 DOUBLE_H [[100], [101], [97], [98]]) [105]).2 = 0 ∧
    insert_probes (build 5 DOUBLE_H [[100], [101], [97], [98]]) [105] 5
      (htable_word_to_int [105] % 5) 0 = [0, 1, 3, 2, 0] ∧
    (build 5 DOUBLE_H [[100], [101], [97], [98]]).keys.getD 4 none = none ∧
    (build 5 DOUBLE_H [[100], [101], [97], [98]]).num_keys = 4 ∧
    (build 5 DOUBLE_H [[100], [101], [97], [98]]).capacity = 5 := by
  decide

/-- One call keeps every collision-log entry already written and never lowers
`num_keys`. -/
theorem stats_insert_stable (h : htable) (hinv : Inv h) (s : Key) (j : Nat)
    (hj : j < h.num_keys) :
    (htable_insert h s).1.stats.getD j 0 = h.stats.getD j 0 ∧
      h.num_keys ≤ (htable_insert h s).1.num_keys := by
  rcases insert_cases h hinv s with ⟨i, hi, heq⟩ | ⟨e, c, _, ho, heq⟩ | ⟨_, _, heq⟩
  · rw [heq]
    exact ⟨rfl, Nat.le_refl _⟩
  · rw [heq]
    refine ⟨?_, Nat.le_succ _⟩
    simp only [place]
    exact getD_set_ne _ _ _ _ _ (by omega)
  · rw [heq]
    exact ⟨rfl, Nat.le_refl _⟩

theorem stats_run_stable (h : htable) (hinv : Inv h) (ks : List Key) (j : Nat)
    (hj : j < h.num_keys) :
    (run_inserts h ks).1.stats.getD j 0 = h.stats.getD j 0 := by
  induction ks generalizing h with
  | nil => rfl
  | cons s ks ih =>
    show (run_inserts (htable_insert h s).1 ks).1.stats.getD j 0 = _
    have hstep := stats_insert_stable h hinv s j hj
    rw [ih _ (inv_insert h hinv s) (by omega), hstep.1]

/-- C8: when a call on a reachable table stores a new key (it returns 1), the
collision-log entry it appends, `stats[num_keys]` for the old `num_keys`, is 0
exactly when the key now sits in its home slot `htable_word_to_int(key) %
capacity`; and no later sequence of insertions changes that entry. -/
theorem C8_log_entry_home (h : htable) (hr : Reachable h) (k : Key)
    (hplaced : (htable_insert h k).2 = 1) :
    (htable_insert h k).1.num_keys = h.num_keys + 1 ∧
    ((htable_insert h k).1.stats.getD h.num_keys 0 = 0 ↔
      (htable_insert h k).1.keys.getD (htable_word_to_int k % h.capacity) none = some k) ∧
    (∀ ks, (run_inserts (htable_insert h k).1 ks).1.stats.getD h.num_keys 0 =
      (htable_insert h k).1.stats.getD h.num_keys 0) := by
  have hinv := inv_of_reachable h hr
  have hinv2 := inv_insert h hinv k
  rcases insert_cases h hinv k with ⟨i, hi, heq⟩ | ⟨e, c, _, ho, heq⟩ | ⟨_, _, heq⟩
  · exfalso
    have hpos := hinv.freq_pos i k hi
    rw [heq] at hplaced
    have h1 : h.freqs.getD i 0 + 1 = 1 := hplaced
    omega
  · obtain ⟨hc, he, hnone, hpath⟩ := outcome_empty h k e c ho
    have helt := empty_slot_lt h hinv k e c ho
    have hek : e < h.keys.length := by rw [hinv.klen]; exact helt
    have hnk : h.num_keys < h.stats.length := by
      rw [hinv.slen, hinv.nk, ← hinv.klen]
      exact countP_lt_of_none _ e hek hnone
    have hnum : (htable_insert h k).1.num_keys = h.num_keys + 1 := by rw [heq]; rfl
    refine ⟨hnum, ?_, ?_⟩
    · rw [heq]
      have hstat : (place h k e c).stats.getD h.num_keys 0 = c := getD_set_eq _ _ _ _ hnk
      rw [hstat]
      constructor
      · intro hc0
        subst hc0
        have he0 : home h k = e := he
        show (place h k e 0).keys.getD (home h k) none = some k
        rw [he0]
        exact place_keys_self h k e 0 hek
      · intro hhome
        by_contra hc0
        rcases hpath 0 (Nat.pos_of_ne_zero hc0) with ⟨k2, hk2, hne⟩
        have hk2h : h.keys.getD (home h k) none = some k2 := hk2
        have heh : e ≠ home h k := by
          intro heq2
          rw [← heq2, hnone] at hk2h
          cases hk2h
        have hhome2 : (place h k e c).keys.getD (home h k) none = some k := hhome
        rw [place_keys_ne h k e c _ heh, hk2h] at hhome2
        exact hne (Option.some.inj hhome2)
    · intro ks
      exact stats_run_stable _ hinv2 ks h.num_keys (by omega)
  · rw [heq] at hplaced
    cases hplaced

theorem C8_log_entry_home_witness :
    Reachable (build 5 LINEAR_P [[97]]) ∧
    (htable_insert (build 5 LINEAR_P [[97]]) [102]).2 = 1 ∧
    (htable_insert (build 5 LINEAR_P [[97]]) [102]).1.num_keys = 2 ∧
    (htable_insert (build 5 LINEAR_P [[97]]) [102]).1.stats.getD 1 0 = 1 :=
  ⟨⟨5, LINEAR_P, [[97]], by decide, rfl⟩, by decide,
    (C8_log_entry_home (build 5 LINEAR_P [[97]])
      ⟨5, LINEAR_P, [[97]], by decide, rfl⟩ [102] (by decide)).1,
    by decide⟩

/-! ## The hash function -/

theorem word_to_int_loop_lt (acc : Nat) (word : Key) (hacc : acc < 2 ^ 32) :
    htable_word_to_int_loop acc word < 2 ^ 32 := by
  induction word generalizing acc with
  | nil => exact hacc
  | cons b word ih => exact ih _ (Nat.mod_lt _ (by norm_num))

theorem poly_cons (b : Nat) (word : Key) :
    Finset.sum (Finset.range (b :: word).length)
        (fun j => (b :: word).getD j 0 * 31 ^ ((b :: word).length - 1 - j)) =
      b * 31 ^ word.length +
        Finset.sum (Finset.range word.length)
          (fun j => word.getD j 0 * 31 ^ (word.length - 1 - j)) := by
  rw [List.length_cons, Finset.sum_range_succ', Nat.add_comm]
  congr 1
  apply Finset.sum_congr rfl
  intro j _
  rw [List.getD_cons_succ]
  congr 2
  omega

theorem word_to_int_loop_mod (acc : Nat) (word : Key) :
    htable_word_to_int_loop acc word % 2 ^ 32 =
      (acc * 31 ^ word.length +
        Finset.sum (Finset.range word.length)
          (fun j => word.getD j 0 * 31 ^ (word.length - 1 - j))) % 2 ^ 32 := by
  induction word generalizing acc with
  | nil => simp [htable_word_to_int_loop]
  | cons b word ih =>
    rw [poly_cons]
    show htable_word_to_int_loop ((b + 31 * acc) % 2 ^ 32) word % 2 ^ 32 = _
    rw [ih]
    have hmod : ((b + 31 * acc) % 2 ^ 32 * 31 ^ word.length) % 2 ^ 32 =
        ((b + 31 * acc) * 31 ^ word.length) % 2 ^ 32 := by
      rw [Nat.mul_mod, Nat.mod_mod, ← Nat.mul_mod]
    rw [Nat.add_mod, hmod, ← Nat.add_mod, List.length_cons]
    congr 1
    ring

theorem word_to_int_eq_spec (word : Key) : htable_word_to_int word = spec_hash word := by
  have hlt := word_to_int_loop_lt 0 word (by norm_num)
  have hmod := word_to_int_loop_mod 0 word
  rw [Nat.mod_eq_of_lt hlt, Nat.zero_mul, Nat.zero_add] at hmod
  exact hmod

theorem word_to_int_loop_foldl (acc : Nat) (word : Key) :
    htable_word_to_int_loop acc word =
      word.foldl (fun index b => (b + 31 * index) % 2 ^ 32) acc := by
  induction word generalizing acc with
  | nil => rfl
  | cons b word ih => exact ih _

/-- C10: for a key with bytes in `0 .. 127`, `htable_word_to_int` is the sum of
`b_j * 31^(m-1-j)` modulo `2^32`, which is the left fold of
`index = byte + 31 * index` from 0 with 32-bit wraparound (0 for the empty key);
and on a table with at least one slot the first slot examined by
`htable_insert` and by `htable_search` is that value modulo `capacity`. -/
theorem C10_hash_polynomial (word : Key) (_hbytes : ∀ b, b ∈ word → b < 128)
    (h : htable) (hcap : 0 < h.capacity) :
    htable_word_to_int word = spec_hash word ∧
    htable_word_to_int word = word.foldl (fun index b => (b + 31 * index) % 2 ^ 32) 0 ∧
    htable_word_to_int [] = 0 ∧
    (htable_insert_probes h word).head? = some (spec_hash word % h.capacity) ∧
    (htable_search_probes h word).head? = some (spec_hash word % h.capacity) ∧
    htable_insert h word = htable_insert_loop h word h.capacity (spec_hash word % h.capacity) 0 ∧
    htable_search h word = htable_search_loop h word h.capacity (spec_hash word % h.capacity) 0 := by
  have hspec := word_to_int_eq_spec word
  obtain ⟨c, hc⟩ : ∃ c, h.capacity = c + 1 := ⟨h.capacity - 1, by omega⟩
  refine ⟨hspec, word_to_int_loop_foldl 0 word, rfl, ?_, ?_, ?_, ?_⟩
  · simp only [htable_insert_probes, hspec, hc, insert_probes]
    cases h.keys.getD (spec_hash word % (c + 1)) none with
    | none => rfl
    | some k =>
      simp only
      split
      · rfl
      · split <;> rfl
  · simp only [htable_search_probes, hspec, hc, search_probes]
    cases h.keys.getD (spec_hash word % (c + 1)) none with
    | none => rfl
    | some k =>
      simp only
      split
      · rfl
      · split <;> rfl
  · simp only [htable_insert, hspec]
  · simp only [htable_search, hspec]

theorem C10_hash_polynomial_witness :
    (∀ b, b ∈ [97, 98] → b < 128) ∧ 0 < (htable_new 5 LINEAR_P).capacity ∧
    htable_word_to_int [97, 98] = 3105 ∧ spec_hash [97, 98] = 3105 :=
  ⟨by decide, by decide, by decide,
    (C10_hash_polynomial [97, 98] (by decide) (htable_new 5 LINEAR_P) (by decide)).1.symm.trans
      (by decide)⟩

/-! ## The prime sizer -/

theorem card_divisors_eq_two_iff (n : Nat) : (Nat.divisors n).card = 2 ↔ Nat.Prime n := by
  constructor
  · intro hcard
    have h0 : n ≠ 0 := by
      intro h0
      subst h0
      simp at hcard
    have h1 : n ≠ 1 := by
      intro h1
      subst h1
      simp at hcard
    have hsub : ({1, n} : Finset Nat) ⊆ Nat.divisors n := by
      intro d hd
      rw [Finset.mem_insert, Finset.mem_singleton] at hd
      rcases hd with rfl | rfl
      · exact Nat.one_mem_divisors.mpr h0
      · exact Nat.mem_divisors_self _ h0
    have heq : ({1, n} : Finset Nat) = Nat.divisors n :=
      Finset.eq_of_subset_of_card_le hsub (by rw [hcard, Finset.card_pair (Ne.symm h1)])
    rw [Nat.prime_def]
    refine ⟨by omega, fun m hm => ?_⟩
    have hmem : m ∈ Nat.divisors n := Nat.mem_divisors.mpr ⟨hm, h0⟩
    rw [← heq, Finset.mem_insert, Finset.mem_singleton] at hmem
    exact hmem
  · intro hp
    rw [hp.divisors, Finset.card_pair hp.one_lt.ne]

/-- The loop of `is_prime` counts the divisors of `n` from `a` up to `n`; it
leaves through its condition `i <= n`, whatever iterations remain allowed. -/
theorem is_prime_loop_count (n : Nat) (hn : n < 2147483647) (fuel a : Nat) (j : Int)
    (ha : 1 ≤ a) (han : a ≤ n + 1) (hfuel : n + 1 ≤ a + fuel) :
    is_prime_loop (n : Int) fuel (a : Int) j =
      some (j + (((Finset.Ico a (n + 1)).filter (fun d => d ∣ n)).card : Int)) := by
  induction fuel generalizing a j with
  | zero =>
    have hempty : Finset.Ico a (n + 1) = ∅ := Finset.Ico_eq_empty (by omega)
    simp [is_prime_loop, hempty]
  | succ fuel ih =>
    by_cases hle : a ≤ n
    · have hle2 : (a : Int) ≤ (n : Int) := by omega
      have hmax : ¬ ((a : Int) = 2 ^ 31 - 1) := by
        norm_num
        omega
      have hdvd : ((n : Int) % (a : Int) = 0) ↔ a ∣ n := by
        rw [← Int.dvd_iff_emod_eq_zero, Int.natCast_dvd_natCast]
      have hins : Finset.Ico a (n + 1) = insert a (Finset.Ico (a + 1) (n + 1)) :=
        (Nat.Ico_insert_succ_left (by omega)).symm
      have hnot : a ∉ (Finset.Ico (a + 1) (n + 1)).filter (fun d => d ∣ n) := by
        simp
      simp only [is_prime_loop, if_pos hle2, if_neg hmax]
      have hcast : (a : Int) + 1 = ((a + 1 : Nat) : Int) := by push_cast; rfl
      rw [hcast, ih (a + 1) _ (by omega) (by omega) (by omega), hins, Finset.filter_insert]
      by_cases hd : a ∣ n
      · rw [if_pos (hdvd.mpr hd), if_pos hd, Finset.card_insert_of_not_mem hnot]
        push_cast
        congr 1
        ring
      · rw [if_neg (fun hc => hd (hdvd.mp hc)), if_neg hd]
    · have hle2 : ¬ ((a : Int) ≤ (n : Int)) := by omega
      have hempty : Finset.Ico a (n + 1) = ∅ := Finset.Ico_eq_empty (by omega)
      simp [is_prime_loop, hle2, hempty]

/-- The `n` iterations allowed to the loop of `is_prime` are enough: allowing
more gives the same count. -/
theorem is_prime_loop_fuel (n : Nat) (hn : n < 2147483647) (extra : Nat) :
    is_prime_loop (n : Int) (n + extra) 1 0 = is_prime_loop (n : Int) n 1 0 := by
  have h1 := is_prime_loop_count n hn (n + extra) 1 0 (Nat.le_refl 1) (by omega) (by omega)
  have h2 := is_prime_loop_count n hn n 1 0 (Nat.le_refl 1) (by omega) (by omega)
  rw [Nat.cast_one] at h1 h2
  rw [h1, h2]

/-- On `0 <= n < INT_MAX`, `is_prime` returns 1 for a prime and 0 otherwise. -/
theorem is_prime_eq (n : Nat) (hn : n < 2147483647) :
    is_prime (n : Int) = some (if Nat.Prime n then 1 else 0) := by
  have hcount := is_prime_loop_count n hn n 1 0 (Nat.le_refl 1) (by omega) (by omega)
  have hdiv : (Finset.Ico 1 (n + 1)).filter (fun d => d ∣ n) = Nat.divisors n := rfl
  rw [hdiv, Int.zero_add, Nat.cast_one] at hcount
  simp only [is_prime, Int.toNat_ofNat]
  rw [hcount]
  by_cases hp : Nat.Prime n
  · have h2 := (card_divisors_eq_two_iff n).mpr hp
    simp [hp, h2]
  · have h2 : ¬ (Nat.divisors n).card = 2 := fun hc => hp ((card_divisors_eq_two_iff n).mp hc)
    have h2i : ¬ (((Nat.divisors n).card : Int) = 2) := by
      intro hc
      exact h2 (by exact_mod_cast hc)
    simp [hp, h2i]

theorem is_prime_of_le_one (i : Int) (hi : i ≤ 1) : is_prime i = some 0 := by
  by_cases hlt : i < 1
  · have h0 : i.toNat = 0 := Int.toNat_eq_zero.mpr (by omega)
    simp [is_prime, h0, is_prime_loop]
  · have h1 : i = 1 := by omega
    subst h1
    decide

/-- From `a` the loop of `get_prime` stops at the first prime `p >= a`, when that
prime is below `INT_MAX` and the iteration bound exceeds `p - a`. -/
theorem get_prime_loop_eq (p : Nat) (hp : Nat.Prime p) (hrange : p < 2147483647)
    (fuel a : Nat) (hap : a ≤ p) (hmin : ∀ q, a ≤ q → q < p → ¬ Nat.Prime q)
    (hfuel : p - a < fuel) : get_prime_loop fuel (a : Int) = some (p : Int) := by
  induction fuel generalizing a with
  | zero => omega
  | succ fuel ih =>
    rcases Nat.eq_or_lt_of_le hap with heq | hlt
    · subst heq
      simp [get_prime_loop, is_prime_eq a hrange, hp]
    · have hnp : ¬ Nat.Prime a := hmin a (Nat.le_refl a) hlt
      have hcast : (a : Int) + 1 = ((a + 1 : Nat) : Int) := by push_cast; rfl
      simp only [get_prime_loop, is_prime_eq a (by omega), hnp, if_false]
      rw [hcast]
      simp only [ne_eq, not_true_eq_false, if_false]
      exact ih (a + 1) hlt (fun q hq1 hq2 => hmin q (by omega) hq2) (by omega)

theorem to_int_of_lt (n : Nat) (hn : n < 2147483648) : to_int n = (n : Int) := by
  have h1 : n % 2 ^ 32 = n := Nat.mod_eq_of_lt (by omega)
  simp only [to_int, h1]
  rw [if_pos (by norm_num; exact hn)]

/-- From a number `2 - k` at or below 2 the loop of `get_prime` climbs to 2. -/
theorem get_prime_loop_low (k f : Nat) :
    get_prime_loop (k + f + 1) (2 - (k : Int)) = some 2 := by
  induction k with
  | zero =>
    have h2 : is_prime 2 = some 1 := by decide
    simp [get_prime_loop, h2]
  | succ k ih =>
    have hlow : is_prime (2 - ((k + 1 : Nat) : Int)) = some 0 :=
      is_prime_of_le_one _ (by push_cast; omega)
    have hnext : (2 - ((k + 1 : Nat) : Int)) + 1 = 2 - (k : Int) := by push_cast; ring
    have hfuel : k + 1 + f + 1 = (k + f + 1) + 1 := by omega
    rw [hfuel]
    simp only [get_prime_loop, hlow, ne_eq, not_true_eq_false, if_false]
    rw [hnext]
    exact ih

/-- C9 (as stated, refuted): the `unsigned int` argument `2^31` is converted to the
`int` `-2^31`; `is_prime` rejects every number up to 1, the loop counts up to 2
and `get_prime` returns 2, which is not `>= 2^31`. -/
theorem C9_counterexample :
    to_int 2147483648 = -2147483648 ∧
    get_prime 2147483651 2147483648 = some 2 ∧
    ¬ ((2147483648 : Int) ≤ 2) := by
  have hconv : to_int 2147483648 = -2147483648 := by decide
  refine ⟨hconv, ?_, by decide⟩
  have hloop := get_prime_loop_low 2147483650 0
  have harg : (2 : Int) - ((2147483650 : Nat) : Int) = -2147483648 := by norm_num
  rw [harg] at hloop
  simp only [get_prime, hconv]
  exact hloop

/-- C9 (amended): when the smallest prime `p >= n` is below `INT_MAX = 2^31 - 1`,
`get_prime(n)` returns `p` (it returns once the loop may run more than `p - n`
times): a prime, `>= n`, with no prime in `[n, p)`; in particular
`get_prime(0) = get_prime(1) = 2`, `get_prime(10) = 11`, `get_prime(25) = 29`. -/
theorem C9_get_prime_smallest (n p : Nat) (hp : Nat.Prime p) (hnp : n ≤ p)
    (hmin : ∀ q, n ≤ q → q < p → ¬ Nat.Prime q) (hrange : p < 2147483647)
    (fuel : Nat) (hfuel : p - n < fuel) :
    get_prime fuel n = some (p : Int) ∧
    get_prime 3 0 = some 2 ∧ get_prime 2 1 = some 2 ∧
    get_prime 2 10 = some 11 ∧ get_prime 5 25 = some 29 := by
  refine ⟨?_, by decide, by decide, by decide, by decide⟩
  simp only [get_prime]
  rw [to_int_of_lt n (by omega)]
  exact get_prime_loop_eq p hp hrange fuel n hnp hmin hfuel

theorem C9_get_prime_smallest_witness :
    Nat.Prime 29 ∧ get_prime 5 25 = some ((29 : Nat) : Int) :=
  ⟨by norm_num,
    (C9_get_prime_smallest 25 29 (by norm_num) (by decide)
      (by
        intro q h1 h2
        interval_cases q <;> norm_num)
      (by decide) 5 (by decide)).1⟩

/-! ## Search against insertion, and what insertion never does -/

/-- C20: in a reachable table two different occupied slots hold different keys. -/
theorem C20_no_duplicate_keys (h : htable) (hr : Reachable h) (i j : Nat) (ki kj : Key)
    (hi : h.keys.getD i none = some ki) (hj : h.keys.getD j none = some kj)
    (hij : i ≠ j) : ki ≠ kj := by
  intro hkk
  subst hkk
  exact hij (slot_unique h (inv_of_reachable h hr) ki i j hi hj)

theorem C20_no_duplicate_keys_witness :
    Reachable (build 5 DOUBLE_H [[97], [102], [97]]) ∧
    (build 5 DOUBLE_H [[97], [102], [97]]).keys.getD 2 none = some [97] ∧
    (build 5 DOUBLE_H [[97], [102], [97]]).keys.getD 0 none = some [102] ∧
    ([97] : Key) ≠ [102] :=
  ⟨⟨5, DOUBLE_H, [[97], [102], [97]], by decide, rfl⟩, by decide, by decide,
    C20_no_duplicate_keys (build 5 DOUBLE_H [[97], [102], [97]])
      ⟨5, DOUBLE_H, [[97], [102], [97]], by decide, rfl⟩ 2 0 [97] [102]
      (by decide) (by decide) (by decide)⟩

/-! ## Probe sequences -/

/-- A key whose probes meet other keys and then an empty slot ends at that
slot, with the number of slots passed as its collision count. -/
theorem outcome_of_empty_path (h : htable) (s : Key) (d : Nat) (hd : d < h.capacity)
    (hnone : h.keys.getD ((advance h)^[d] (home h s)) none = none)
    (hpath : ∀ j, j < d → OtherAt h s ((advance h)^[j] (home h s))) :
    probe_outcome h s h.capacity (home h s) 0 =
      Outcome.empty ((advance h)^[d] (home h s)) d := by
  rcases probe_outcome_spec h s h.capacity (home h s) 0 (by omega) with
    ⟨d2, hd2, hpath2, hnone2, hout⟩ | ⟨d2, hd2, hpath2, hsome2, hout⟩ | ⟨hpath2, hout⟩
  · rcases Nat.lt_trichotomy d2 d with hlt | heq | hgt
    · exact absurd hnone2 (hpath d2 hlt).ne_none
    · subst heq
      rw [hout, Nat.zero_add]
    · exact absurd hnone (hpath2 d hgt).ne_none
  · exfalso
    rcases Nat.lt_trichotomy d2 d with hlt | heq | hgt
    · exact (hpath d2 hlt).ne_some hsome2
    · subst heq; rw [hnone] at hsome2; cases hsome2
    · exact (hpath2 d hgt).ne_none hnone
  · exact absurd hnone (hpath2 d hd).ne_none

theorem probe_linear_eq (h : htable) (hm : h.method = LINEAR_P) (hc : 0 < h.capacity)
    (s : Key) (j : Nat) : (advance h)^[j] (home h s) = (home h s + j) % h.capacity := by
  rw [← probe_linear h hm, Nat.mod_eq_of_lt (probe_lt h hc s j)]

/-- What a call that stores a new key does, in terms of the probe sequence: the
logged count `c` is below `capacity`, the key goes to the slot reached after `c`
steps, that slot was empty, and the slots reached earlier held other keys. -/
theorem placed_spec (h : htable) (hinv : Inv h) (k : Key)
    (hplaced : (htable_insert h k).2 = 1) :
    ∃ c, (htable_insert h k).1.stats.getD h.num_keys 0 = c ∧ c < h.capacity ∧
      (htable_insert h k).1.keys.getD ((advance h)^[c] (home h k)) none = some k ∧
      h.keys.getD ((advance h)^[c] (home h k)) none = none ∧
      ∀ j, j < c → OtherAt h k ((advance h)^[j] (home h k)) := by
  rcases insert_cases h hinv k with ⟨i, hi, heq⟩ | ⟨e, c, _, ho, heq⟩ | ⟨_, _, heq⟩
  · exfalso
    have hpos := hinv.freq_pos i k hi
    rw [heq] at hplaced
    have h1 : h.freqs.getD i 0 + 1 = 1 := hplaced
    omega
  · obtain ⟨hc, he, hnone, hpath⟩ := outcome_empty h k e c ho
    have helt := empty_slot_lt h hinv k e c ho
    have hek : e < h.keys.length := by rw [hinv.klen]; exact helt
    have hnk : h.num_keys < h.stats.length := by
      rw [hinv.slen, hinv.nk, ← hinv.klen]
      exact countP_lt_of_none _ e hek hnone
    refine ⟨c, ?_, hc, ?_, ?_, hpath⟩
    · rw [heq]
      exact getD_set_eq _ _ _ _ hnk
    · rw [heq, he]
      exact place_keys_self h k e c hek
    · rw [he]
      exact hnone
  · rw [heq] at hplaced
    cases hplaced

/-- Two different keys with the same home slot, inserted into a new linear
probing table with at least two slots: the second goes to the next slot with
one collision logged. -/
theorem linear_two_keys (c : Nat) (k1 k2 : Key) (hc : 2 ≤ c) (hne : k1 ≠ k2)
    (hhome : htable_word_to_int k1 % c = htable_word_to_int k2 % c) :
    (build c LINEAR_P [k1, k2]).keys.getD ((htable_word_to_int k2 % c + 1) % c) none =
      some k2 ∧
    (build c LINEAR_P [k1, k2]).stats.getD 1 0 = 1 ∧
    (build c LINEAR_P [k1, k2]).keys.getD (htable_word_to_int k2 % c) none = some k1 := by
  have hv : ValidCap c LINEAR_P := ⟨by omega, fun hcontra => by cases hcontra⟩
  have hinv0 := inv_new c LINEAR_P hv
  have ha : htable_word_to_int k1 % c < c := Nat.mod_lt _ (by omega)
  generalize hadef : htable_word_to_int k1 % c = a at ha hhome
  have hout0 : probe_outcome (htable_new c LINEAR_P) k1 c a 0 = Outcome.empty a 0 := by
    have h0 := outcome_of_empty_path (htable_new c LINEAR_P) k1 0 (by show 0 < c; omega)
      (getD_replicate_self c _ none) (fun j hj => absurd hj (Nat.not_lt_zero j))
    simp only [home, Function.iterate_zero, id_eq] at h0
    rw [show (htable_new c LINEAR_P).capacity = c from rfl, hadef] at h0
    exact h0
  have hins0 : htable_insert (htable_new c LINEAR_P) k1 =
      (place (htable_new c LINEAR_P) k1 a 0, 1) := by
    rw [insert_eq]
    simp only [home]
    rw [show (htable_new c LINEAR_P).capacity = c from rfl, hadef, hout0]
  have hinv1 : Inv (place (htable_new c LINEAR_P) k1 a 0) := by
    have := inv_insert _ hinv0 k1
    rw [hins0] at this
    exact this
  generalize hh1 : place (htable_new c LINEAR_P) k1 a 0 = h1 at hins0 hinv1
  have hcap1 : h1.capacity = c := by rw [← hh1]; rfl
  have hm1 : h1.method = LINEAR_P := by rw [← hh1]; rfl
  have hnk1 : h1.num_keys = 1 := by rw [← hh1]; rfl
  have hhome1 : home h1 k2 = a := by
    simp only [home, hcap1]
    exact hhome.symm
  have hkeys_a : h1.keys.getD a none = some k1 := by
    rw [← hh1]
    exact place_keys_self _ k1 a 0 (by simp [htable_new]; exact ha)
  have hnext_ne : a ≠ (a + 1) % c := by
    intro hcontra
    by_cases hlt : a + 1 < c
    · rw [Nat.mod_eq_of_lt hlt] at hcontra
      omega
    · have hac : a + 1 = c := by omega
      rw [hac, Nat.mod_self] at hcontra
      omega
  have hkeys_next : h1.keys.getD ((a + 1) % c) none = none := by
    rw [← hh1, place_keys_ne _ k1 a 0 _ hnext_ne]
    exact getD_replicate_self c _ none
  have hadv : (advance h1)^[1] (home h1 k2) = (a + 1) % c := by
    rw [Function.iterate_one, hhome1, advance_linear h1 hm1, hcap1]
  have hout1 := outcome_of_empty_path h1 k2 1 (by rw [hcap1]; omega)
    (by rw [hadv]; exact hkeys_next)
    (fun j hj => by
      have hj0 : j = 0 := by omega
      subst hj0
      rw [Function.iterate_zero, id_eq, hhome1]
      exact ⟨k1, hkeys_a, hne⟩)
  rw [hadv] at hout1
  have hins1 : htable_insert h1 k2 = (place h1 k2 ((a + 1) % c) 1, 1) := by
    rw [insert_eq, hout1]
  have hbuild : build c LINEAR_P [k1, k2] = place h1 k2 ((a + 1) % c) 1 := by
    show (htable_insert (htable_insert (htable_new c LINEAR_P) k1).1 k2).1 = _
    rw [hins0, hins1]
  have hnextlt : (a + 1) % c < c := Nat.mod_lt _ (by omega)
  rw [hbuild, ← hhome]
  refine ⟨place_keys_self h1 k2 _ 1 (by rw [hinv1.klen, hcap1]; exact hnextlt), ?_, ?_⟩
  · show (h1.stats.set h1.num_keys 1).getD 1 0 = 1
    rw [hnk1]
    exact getD_set_eq _ _ _ _ (by rw [hinv1.slen, hcap1]; omega)
  · rw [place_keys_ne h1 k2 _ 1 a (Ne.symm hnext_ne)]
    exact hkeys_a

/-- C18: under `LINEAR_P`, a call on a reachable table that stores a new key with
home slot `h0` and logged collision count `c` stores it in slot
`(h0 + c) % capacity`, which was empty, and the `c` slots `(h0 + j) % capacity`,
`j < c`, held other keys; and two different keys with the same home slot `a`
inserted into a new table with at least two slots leave the second one in slot
`(a + 1) % capacity` with log entry 1. -/
theorem C18_linear_placement (h : htable) (hr : Reachable h) (hm : h.method = LINEAR_P)
    (k : Key) (hplaced : (htable_insert h k).2 = 1)
    (c : Nat) (k1 k2 : Key) (hc : 2 ≤ c) (hne : k1 ≠ k2)
    (hhome : htable_word_to_int k1 % c = htable_word_to_int k2 % c) :
    ((htable_insert h k).1.stats.getD h.num_keys 0 < h.capacity ∧
      (htable_insert h k).1.keys.getD
        ((htable_word_to_int k % h.capacity + (htable_insert h k).1.stats.getD h.num_keys 0)
          % h.capacity) none = some k ∧
      h.keys.getD
        ((htable_word_to_int k % h.capacity + (htable_insert h k).1.stats.getD h.num_keys 0)
          % h.capacity) none = none ∧
      ∀ j, j < (htable_insert h k).1.stats.getD h.num_keys 0 →
        OtherAt h k ((htable_word_to_int k % h.capacity + j) % h.capacity)) ∧
    ((build c LINEAR_P [k1, k2]).keys.getD ((htable_word_to_int k2 % c + 1) % c) none =
        some k2 ∧
      (build c LINEAR_P [k1, k2]).stats.getD 1 0 = 1) := by
  have hinv := inv_of_reachable h hr
  have htwo := linear_two_keys c k1 k2 hc hne hhome
  refine ⟨?_, htwo.1, htwo.2.1⟩
  obtain ⟨d, hd, hdc, hstored, hwas, hpath⟩ := placed_spec h hinv k hplaced
  rw [hd]
  have hlin : ∀ j, (advance h)^[j] (home h k) =
      (htable_word_to_int k % h.capacity + j) % h.capacity :=
    fun j => probe_linear_eq h hm hinv.cap.1 k j
  rw [hlin d] at hstored hwas
  refine ⟨hdc, hstored, hwas, fun j hj => ?_⟩
  rw [← hlin j]
  exact hpath j hj

theorem C18_linear_placement_witness :
    Reachable (build 7 LINEAR_P [[97], [104]]) ∧
    (htable_insert (build 7 LINEAR_P [[97], [104]]) [111]).2 = 1 ∧
    (htable_insert (build 7 LINEAR_P [[97], [104]]) [111]).1.stats.getD 2 0 = 2 ∧
    (build 5 LINEAR_P [[97], [102]]).stats.getD 1 0 = 1 :=
  ⟨⟨7, LINEAR_P, [[97], [104]], by decide, rfl⟩, by decide, by decide,
    (C18_linear_placement (build 7 LINEAR_P [[97], [104]])
      ⟨7, LINEAR_P, [[97], [104]], by decide, rfl⟩ (by decide) [111] (by decide)
      5 [97] [102] (by decide) (by decide) (by decide)).2.2⟩

/-- One call keeps the unwritten part of the collision log at 0. -/
theorem stats_tail_insert (h : htable) (hinv : Inv h)
    (htail : ∀ j, h.num_keys ≤ j → h.stats.getD j 0 = 0) (s : Key) :
    ∀ j, (htable_insert h s).1.num_keys ≤ j → (htable_insert h s).1.stats.getD j 0 = 0 := by
  rcases insert_cases h hinv s with ⟨i, hi, heq⟩ | ⟨e, c, _, ho, heq⟩ | ⟨_, _, heq⟩
  · rw [heq]
    exact htail
  · rw [heq]
    intro j hj
    have hj2 : h.num_keys + 1 ≤ j := hj
    show (h.stats.set h.num_keys c).getD j 0 = 0
    rw [getD_set_ne _ _ _ _ _ (by omega)]
    exact htail j (by omega)
  · rw [heq]
    exact htail

theorem stats_tail_run (h : htable) (hinv : Inv h)
    (htail : ∀ j, h.num_keys ≤ j → h.stats.getD j 0 = 0) (ks : List Key) :
    ∀ j, (run_inserts h ks).1.num_keys ≤ j → (run_inserts h ks).1.stats.getD j 0 = 0 := by
  induction ks generalizing h with
  | nil => exact htail
  | cons s ks ih => exact ih _ (inv_insert h hinv s) (stats_tail_insert h hinv htail s)

/-- In a reachable table the collision-log entries from `num_keys` on are 0. -/
theorem stats_tail_zero (h : htable) (hr : Reachable h) (j : Nat) (hj : h.num_keys ≤ j) :
    h.stats.getD j 0 = 0 := by
  rcases hr with ⟨c, t, ks, hv, rfl⟩
  exact stats_tail_run _ (inv_new c t hv) (fun i _ => getD_replicate_self c i 0) ks j hj

/-- C15 (as stated, refuted): in a linear-probing table of capacity 5 holding "a"
(slot 2, no collision) and "f" (slot 3, one collision), slot 1 is empty, yet
its record shows the statistic `stats[1] = 1`, the collision count of the
second key inserted, not 0. -/
theorem C15_counterexample :
    Reachable (build 5 LINEAR_P [[97], [102]]) ∧
    (build 5 LINEAR_P [[97], [102]]).keys.getD 1 none = none ∧
    (htable_print_entire_htable (build 5 LINEAR_P [[97], [102]])).getD 1 (0, 0, 0, none) =
      (1, 0, 1, none) ∧
    (htable_print_entire_htable (build 5 LINEAR_P [[97], [102]])).getD 1 (0, 0, 0, none) ≠
      (1, 0, 0, none) :=
  ⟨⟨5, LINEAR_P, [[97], [102]], by decide, rfl⟩, by decide, by decide, by decide⟩

/-- C15 (amended): on a reachable table `htable_print_entire_htable` emits one
record per slot in increasing index order, the record of slot `i` being
`(i, freqs[i], stats[i], keys[i])`; for an empty slot `i` the record is
`(i, 0, stats[i], no key)`: the frequency shown is 0 and the statistic shown is
entry `i` of the insertion-ordered collision log, which is 0 when
`i >= num_keys`. -/
theorem C15_dump_records (h : htable) (hr : Reachable h) :
    htable_print_entire_htable h =
      (List.range h.capacity).map
        (fun i => (i, h.freqs.getD i 0, h.stats.getD i 0, h.keys.getD i none)) ∧
    (htable_print_entire_htable h).length = h.capacity ∧
    (∀ i, i < h.capacity → h.keys.getD i none = none →
      (htable_print_entire_htable h).getD i (0, 0, 0, none) =
        (i, 0, h.stats.getD i 0, none) ∧
      (h.num_keys ≤ i →
        (htable_print_entire_htable h).getD i (0, 0, 0, none) = (i, 0, 0, none))) := by
  have hinv := inv_of_reachable h hr
  have heq : htable_print_entire_htable h =
      (List.range h.capacity).map
        (fun i => (i, h.freqs.getD i 0, h.stats.getD i 0, h.keys.getD i none)) := by
    simp only [htable_print_entire_htable]
    apply List.map_congr_left
    intro i _
    cases h.keys.getD i none <;> rfl
  refine ⟨heq, by rw [heq]; simp, ?_⟩
  intro i hi hnone
  have hrec : (htable_print_entire_htable h).getD i (0, 0, 0, none) =
      (i, 0, h.stats.getD i 0, none) := by
    rw [heq, List.getD_eq_getElem?_getD, List.getElem?_map,
      List.getElem?_range hi, Option.map_some', Option.getD_some, hnone,
      hinv.freq_zero i hnone]
  refine ⟨hrec, fun hnk => ?_⟩
  rw [hrec, stats_tail_zero h hr i hnk]

theorem C15_dump_records_witness :
    Reachable (build 5 LINEAR_P [[97], [102]]) ∧
    (htable_print_entire_htable (build 5 LINEAR_P [[97], [102]])).length = 5 ∧
    htable_print_entire_htable (build 5 LINEAR_P [[97], [102]]) =
      [(0, 0, 0, none), (1, 0, 1, none), (2, 1, 0, some [97]), (3, 1, 0, some [102]),
        (4, 0, 0, none)] :=
  ⟨⟨5, LINEAR_P, [[97], [102]], by decide, rfl⟩,
    (C15_dump_records (build 5 LINEAR_P [[97], [102]])
      ⟨5, LINEAR_P, [[97], [102]], by decide, rfl⟩).2.1.trans (by decide),
    by decide⟩

/-! ## Linear probing with room for every key -/

theorem tdiv_natCast (a b : Nat) : Int.tdiv ((a : Nat) : Int) ((b : Nat) : Int) = ((a / b : Nat) : Int) :=
  (Int.ofNat_tdiv a b).symm

theorem fits_int_natCast (a : Nat) (ha : (a : Int) < 2 ^ 31) : fits_int (a : Int) := by
  refine ⟨?_, ha⟩
  have h0 : (0 : Int) ≤ (a : Int) := Int.natCast_nonneg a
  have hneg : (-2 ^ 31 : Int) ≤ 0 := by norm_num
  exact Int.le_trans hneg h0

/-- The test `current_entries > 0 && current_entries <= h->num_keys` and the line
printed, for a number of entries given as a natural number. -/
theorem print_stats_line_body (h : htable) (percent_full : Int) (e : Nat) :
    (if 0 < (e : Int) ∧ (e : Int) ≤ (h.num_keys : Int) then
      some [({ percent_full := percent_full
               current_entries := (e : Int)
               at_home := (print_stats_scan h (e : Int).toNat).1
               sum_collisions := (print_stats_scan h (e : Int).toNat).2.2
               max_collisions := (print_stats_scan h (e : Int).toNat).2.1 } : stats_line)]
      else some []) =
    some (if 0 < e ∧ e ≤ h.num_keys then
      [({ percent_full := percent_full
          current_entries := (e : Int)
          at_home := (print_stats_scan h e).1
          sum_collisions := (print_stats_scan h e).2.2
          max_collisions := (print_stats_scan h e).2.1 } : stats_line)] else []) := by
  rw [Int.toNat_natCast]
  by_cases hcond : 0 < e ∧ e ≤ h.num_keys
  · have hcond2 : (0 : Int) < (e : Int) ∧ (e : Int) ≤ (h.num_keys : Int) :=
      ⟨by exact_mod_cast hcond.1, by exact_mod_cast hcond.2⟩
    rw [if_pos hcond, if_pos hcond2]
  · have hcond2 : ¬ ((0 : Int) < (e : Int) ∧ (e : Int) ≤ (h.num_keys : Int)) := by
      intro hc
      exact hcond ⟨by exact_mod_cast hc.1, by exact_mod_cast hc.2⟩
    rw [if_neg hcond, if_neg hcond2]

/-- A snapshot request for a fill percentage whose product with `capacity` fits
an `int`: a line is printed exactly when the number of entries covered is
positive and at most `num_keys`. -/
theorem print_stats_line_eq (h : htable) (p : Nat)
    (hfit : (h.capacity : Int) * (p : Int) < 2 ^ 31) :
    print_stats_line h (p : Int) =
      some (if 0 < h.capacity * p / 100 ∧ h.capacity * p / 100 ≤ h.num_keys
        then [stats_line_of h p (h.capacity * p / 100)] else []) := by
  have hcast : (h.capacity : Int) * (p : Int) = ((h.capacity * p : Nat) : Int) := by
    push_cast; rfl
  have hfits : fits_int ((h.capacity : Int) * (p : Int)) := by
    rw [hcast] at hfit ⊢
    exact fits_int_natCast _ hfit
  have hdiv : Int.tdiv ((h.capacity : Int) * (p : Int)) 100 =
      ((h.capacity * p / 100 : Nat) : Int) := by
    rw [hcast]
    exact tdiv_natCast (h.capacity * p) 100
  unfold print_stats_line
  rw [if_pos hfits]
  simp only [hdiv]
  exact print_stats_line_body h (p : Int) (h.capacity * p / 100)

theorem print_stats_loop_succ (h : htable) (num_stats : Int) (fuel : Nat) (i : Int) :
    htable_print_stats_loop h num_stats (fuel + 1) i =
      if i ≤ num_stats then
        if fits_int (100 * i) then
          match print_stats_line h (Int.tdiv (100 * i) num_stats),
            htable_print_stats_loop h num_stats fuel (i + 1) with
          | some l, some ls => some (l ++ ls)
          | _, _ => none
        else none
      else some [] := rfl

/-- The loop of `htable_print_stats` from `i` on, when no `int` product
overflows: one line for each `i` up to `num_stats` whose number of entries is
positive and at most `num_keys`, in increasing `i`. -/
theorem print_stats_loop_eq (h : htable) (n : Nat)
    (hcap : (h.capacity : Int) * 100 < 2 ^ 31) (hn : 100 * (n : Int) < 2 ^ 31)
    (fuel i : Nat) (hi : 1 ≤ i) (hfuel : i + fuel = n + 1) :
    htable_print_stats_loop h (n : Int) fuel (i : Int) =
      some (((List.range' i fuel).filter
        (fun j => decide (0 < spec_current_entries h n j ∧
          spec_current_entries h n j ≤ h.num_keys))).map
        (fun j => stats_line_of h (100 * j / n) (spec_current_entries h n j))) := by
  induction fuel generalizing i with
  | zero => rfl
  | succ fuel ih =>
    have hin : i ≤ n := by omega
    have hle : (i : Int) ≤ (n : Int) := by exact_mod_cast hin
    have hc100 : 100 * (i : Int) = ((100 * i : Nat) : Int) := by push_cast; rfl
    have hfits : fits_int (100 * (i : Int)) := by
      rw [hc100]
      apply fits_int_natCast
      have h1 : ((100 * i : Nat) : Int) ≤ 100 * (n : Int) := by
        rw [← hc100]
        exact Int.mul_le_mul_of_nonneg_left hle (by norm_num)
      exact Int.lt_of_le_of_lt h1 hn
    have hpct : Int.tdiv (100 * (i : Int)) (n : Int) = ((100 * i / n : Nat) : Int) := by
      rw [hc100]
      exact tdiv_natCast (100 * i) n
    have hp100 : 100 * i / n ≤ 100 :=
      Nat.div_le_of_le_mul (by rw [Nat.mul_comm n 100]; exact Nat.mul_le_mul_left 100 hin)
    have hline := print_stats_line_eq h (100 * i / n) (by
      have h1 : (h.capacity : Int) * ((100 * i / n : Nat) : Int) ≤ (h.capacity : Int) * 100 := by
        apply Int.mul_le_mul_of_nonneg_left
        · exact_mod_cast hp100
        · exact Int.natCast_nonneg _
      exact Int.lt_of_le_of_lt h1 hcap)
    have hcast : (i : Int) + 1 = ((i + 1 : Nat) : Int) := by push_cast; rfl
    rw [print_stats_loop_succ, if_pos hle, if_pos hfits, hpct, hline, hcast,
      ih (i + 1) (by omega) (by omega), List.range'_succ, List.filter_cons]
    by_cases hcond : 0 < spec_current_entries h n i ∧ spec_current_entries h n i ≤ h.num_keys
    · have hcond2 : 0 < h.capacity * (100 * i / n) / 100 ∧
          h.capacity * (100 * i / n) / 100 ≤ h.num_keys := hcond
      rw [if_pos hcond2, if_pos (decide_eq_true hcond), List.map_cons]
      rfl
    · have hcond2 : ¬ (0 < h.capacity * (100 * i / n) / 100 ∧
          h.capacity * (100 * i / n) / 100 ≤ h.num_keys) := hcond
      rw [if_neg hcond2, if_neg (by rw [decide_eq_true_eq]; exact hcond)]
      rfl

/-- When `100 * num_stats` does not fit an `int` the loop of `htable_print_stats`
reaches the overflowing product: no defined result. -/
theorem print_stats_loop_overflow (h : htable) (n : Nat)
    (hover : ¬ fits_int (100 * (n : Int))) (fuel i : Nat) (hin : i ≤ n) (hfuel : n < i + fuel) :
    htable_print_stats_loop h (n : Int) fuel (i : Int) = none := by
  induction fuel generalizing i with
  | zero => omega
  | succ fuel ih =>
    have hle : (i : Int) ≤ (n : Int) := by exact_mod_cast hin
    rw [print_stats_loop_succ, if_pos hle]
    by_cases hfits : fits_int (100 * (i : Int))
    · have hne : i ≠ n := by
        intro heq
        subst heq
        exact hover hfits
      have hcast : (i : Int) + 1 = ((i + 1 : Nat) : Int) := by push_cast; rfl
      rw [if_pos hfits, hcast, ih (i + 1) (by omega) (by omega)]
      cases print_stats_line h (Int.tdiv (100 * (i : Int)) (n : Int)) <;> rfl
    · rw [if_neg hfits]

theorem print_stats_formula (h : htable) (num_stats : Int)
    (hcap : (h.capacity : Int) * 100 < 2 ^ 31) (hns : 100 * num_stats < 2 ^ 31) :
    htable_print_stats h num_stats =
      some (((List.range' 1 num_stats.toNat).filter
        (fun j => decide (0 < spec_current_entries h num_stats.toNat j ∧
          spec_current_entries h num_stats.toNat j ≤ h.num_keys))).map
        (fun j => stats_line_of h (100 * j / num_stats.toNat)
          (spec_current_entries h num_stats.toNat j))) := by
  by_cases hpos : 0 ≤ num_stats
  · obtain ⟨n, hn⟩ := Int.eq_ofNat_of_zero_le hpos
    subst hn
    rw [Int.toNat_natCast]
    have := print_stats_loop_eq h n hcap hns n 1 (Nat.le_refl 1) (by omega)
    rw [Nat.cast_one] at this
    simp only [htable_print_stats, Int.toNat_natCast]
    exact this
  · have hz : num_stats.toNat = 0 := Int.toNat_eq_zero.mpr (by omega)
    simp only [htable_print_stats, hz]
    rfl

theorem percent_pairwise (h : htable) (n : Nat) (l : List Nat)
    (hl : List.Pairwise (fun a b => a < b) l) :
    List.Pairwise (fun a b : stats_line => a.percent_full ≤ b.percent_full)
      ((l.filter (fun j => decide (0 < spec_current_entries h n j ∧
          spec_current_entries h n j ≤ h.num_keys))).map
        (fun j => stats_line_of h (100 * j / n) (spec_current_entries h n j))) := by
  rw [List.pairwise_map]
  apply List.Pairwise.sublist (List.filter_sublist l)
  apply List.Pairwise.imp _ hl
  intro a b hab
  show ((100 * a / n : Nat) : Int) ≤ ((100 * b / n : Nat) : Int)
  exact_mod_cast Nat.div_le_div_right (Nat.mul_le_mul_left 100 (Nat.le_of_lt hab))

/-- C13 (as stated, refuted): for a table of capacity 1 holding one key and
`num_stats = 21474837` the claim expects a line for `i = 21474837` (100 percent,
one entry), but the `int` product `100 * i` is `2147483700`, above `INT_MAX`,
and the call has no defined result. -/
theorem C13_counterexample :
    (build 1 LINEAR_P [[97]]).capacity = 1 ∧
    (build 1 LINEAR_P [[97]]).num_keys = 1 ∧
    spec_current_entries (build 1 LINEAR_P [[97]]) 21474837 21474837 = 1 ∧
    ¬ fits_int (100 * 21474837) ∧
    htable_print_stats (build 1 LINEAR_P [[97]]) 21474837 = none := by
  refine ⟨by decide, by decide, by decide, by decide, ?_⟩
  exact print_stats_loop_overflow (build 1 LINEAR_P [[97]]) 21474837 (by decide)
    21474837 1 (by decide) (by decide)

/-- C13 (amended): when the `int` products `capacity * 100` and `100 * num_stats`
do not overflow, `htable_print_stats` emits exactly one snapshot line for each
`i` in `1 .. num_stats`, in increasing `i` (so with non-decreasing fill
percentage), for which `capacity * (100 * i / num_stats) / 100` is positive and at
most `num_keys`, and no other; it emits none when `num_stats <= 0`; and for
capacity 8, `num_keys` 4, `num_stats` 4 it emits the lines of `i = 1` (25
percent, 2 entries) and `i = 2` (50 percent, 4 entries). -/
theorem C13_snapshot_lines (h : htable) (num_stats : Int)
    (hcap : (h.capacity : Int) * 100 < 2 ^ 31) (hns : 100 * num_stats < 2 ^ 31) :
    htable_print_stats h num_stats =
      some (((List.range' 1 num_stats.toNat).filter
        (fun i => decide (0 < spec_current_entries h num_stats.toNat i ∧
          spec_current_entries h num_stats.toNat i ≤ h.num_keys))).map
        (fun i => stats_line_of h (100 * i / num_stats.toNat)
          (spec_current_entries h num_stats.toNat i))) ∧
    (∀ lines, htable_print_stats h num_stats = some lines →
      List.Pairwise (fun a b : stats_line => a.percent_full ≤ b.percent_full) lines) ∧
    (num_stats ≤ 0 → htable_print_stats h num_stats = some []) ∧
    (h.capacity = 8 → h.num_keys = 4 →
      htable_print_stats h 4 = some [stats_line_of h 25 2, stats_line_of h 50 4]) := by
  have hmain := print_stats_formula h num_stats hcap hns
  refine ⟨hmain, ?_, ?_, ?_⟩
  · intro lines hlines
    rw [hmain] at hlines
    injection hlines with hlines
    rw [← hlines]
    exact percent_pairwise h _ _ (List.pairwise_lt_range' 1 _)
  · intro hle
    have hz : num_stats.toNat = 0 := Int.toNat_eq_zero.mpr hle
    simp only [htable_print_stats, hz]
    rfl
  · intro hc8 hk4
    rw [print_stats_formula h 4 (by rw [hc8]; norm_num) (by norm_num)]
    simp [List.range', spec_current_entries, hc8, hk4, List.filter_cons]

theorem C13_snapshot_lines_witness :
    (((build 8 LINEAR_P [[97], [98], [105], [100]]).capacity : Int) * 100 < 2 ^ 31) ∧
    htable_print_stats (build 8 LINEAR_P [[97], [98], [105], [100]]) 4 =
      some [⟨25, 2, 2, 0, 0⟩, ⟨50, 4, 3, 2, 2⟩] :=
  ⟨by decide,
    (C13_snapshot_lines (build 8 LINEAR_P [[97], [98], [105], [100]]) 4
      (by decide) (by decide)).1.trans (by decide)⟩

/-! ## The values on a snapshot line -/

theorem foldl_max_ge (l : List Nat) (a : Nat) :
    a ≤ l.foldl max a ∧ ∀ x, x ∈ l → x ≤ l.foldl max a := by
  induction l generalizing a with
  | nil => exact ⟨Nat.le_refl a, fun x hx => absurd hx (List.not_mem_nil x)⟩
  | cons b l ih =>
    have h1 := ih (max a b)
    refine ⟨Nat.le_trans (Nat.le_max_left a b) h1.1, fun x hx => ?_⟩
    rcases List.mem_cons.mp hx with hxb | hxl
    · rw [hxb]
      exact Nat.le_trans (Nat.le_max_right a b) h1.1
    · exact h1.2 x hxl

theorem foldl_max_mem (l : List Nat) (a : Nat) : l.foldl max a = a ∨ l.foldl max a ∈ l := by
  induction l generalizing a with
  | nil => exact Or.inl rfl
  | cons b l ih =>
    rcases ih (max a b) with heq | hmem
    · rcases Nat.le_total a b with hab | hba
      · right
        show List.foldl max (max a b) l ∈ b :: l
        rw [heq, Nat.max_eq_right hab]
        exact List.mem_cons_self b l
      · left
        show List.foldl max (max a b) l = a
        rw [heq, Nat.max_eq_left hba]
    · exact Or.inr (List.mem_cons_of_mem b hmem)

/-- The largest entry of a non-empty list of collision counts is what the
running maximum started at 0 ends with. -/
theorem foldl_max_zero_mem (l : List Nat) (hl : l ≠ []) : l.foldl max 0 ∈ l := by
  rcases foldl_max_mem l 0 with heq | hmem
  · cases l with
    | nil => exact absurd rfl hl
    | cons b l =>
      have hb := (foldl_max_ge (b :: l) 0).2 b (List.mem_cons_self b l)
      rw [heq] at hb ⊢
      have hb0 : b = 0 := by omega
      rw [hb0]
      exact List.mem_cons_self 0 l
  · exact hmem

/-- The scan of `print_stats_line` over the first `n` log entries: the number of
zero entries, the largest entry and the sum of the entries. -/
theorem print_stats_scan_eq (h : htable) (n : Nat) (hn : n ≤ h.stats.length) :
    print_stats_scan h n =
      ((h.stats.take n).countP (fun x => decide (x = 0)), (h.stats.take n).foldl max 0,
        (h.stats.take n).sum) := by
  induction n with
  | zero => rfl
  | succ n ih =>
    have hlt : n < h.stats.length := hn
    have ih2 := ih (Nat.le_of_lt hlt)
    have hget : h.stats.getD n 0 = h.stats[n] := by
      rw [List.getD_eq_getElem?_getD, List.getElem?_eq_getElem hlt, Option.getD_some]
    have htake : h.stats.take (n + 1) = h.stats.take n ++ [h.stats[n]] := by
      rw [List.take_succ, List.getElem?_eq_getElem hlt]
      rfl
    unfold print_stats_scan at ih2 ⊢
    rw [List.range_succ, List.foldl_append, ih2, htake, List.countP_append, List.foldl_append,
      List.sum_append]
    simp only [List.foldl_cons, List.foldl_nil, List.countP_cons, List.countP_nil,
      List.sum_cons, List.sum_nil, Nat.add_zero, Nat.zero_add, hget]
    generalize h.stats[n] = x
    generalize List.foldl max 0 (List.take n h.stats) = m
    refine Prod.ext ?_ (Prod.ext ?_ rfl)
    · by_cases hx : x = 0 <;> simp [hx]
    · show (if x > m then x else m) = max m x
      rw [Nat.max_def]
      by_cases hmx : m ≤ x
      · rw [if_pos hmx]
        by_cases hgt : x > m
        · rw [if_pos hgt]
        · rw [if_neg hgt]
          omega
      · rw [if_neg hmx, if_neg (by omega)]

/-- What an emitted line holds: its number of entries `e` is positive and at most
`num_keys`, and its other fields are the scan of the first `e` log entries. -/
theorem print_stats_line_emitted (h : htable) (p : Int) (l : stats_line)
    (hl : print_stats_line h p = some [l]) :
    ∃ e : Nat, 0 < e ∧ e ≤ h.num_keys ∧ l.current_entries = (e : Int) ∧
      l.percent_full = p ∧
      l.at_home = (print_stats_scan h e).1 ∧
      l.sum_collisions = (print_stats_scan h e).2.2 ∧
      l.max_collisions = (print_stats_scan h e).2.1 := by
  unfold print_stats_line at hl
  by_cases hfits : fits_int ((h.capacity : Int) * p)
  · rw [if_pos hfits] at hl
    by_cases hcond : 0 < Int.tdiv ((h.capacity : Int) * p) 100 ∧
        Int.tdiv ((h.capacity : Int) * p) 100 ≤ (h.num_keys : Int)
    · obtain ⟨e, he⟩ := Int.eq_ofNat_of_zero_le (Int.le_of_lt hcond.1)
      rw [he] at hcond
      simp only [he, Int.toNat_natCast] at hl
      rw [if_pos hcond] at hl
      injection hl with hl
      injection hl with hl
      subst hl
      exact ⟨e, by exact_mod_cast hcond.1, by exact_mod_cast hcond.2, rfl, rfl, rfl, rfl, rfl⟩
    · simp only [if_neg hcond] at hl
      injection hl with hl
      cases hl
  · rw [if_neg hfits] at hl
    cases hl

/-- C14: for a snapshot line emitted over a reachable table, with `E` its number
of entries: `0 < E <= num_keys`, the scan covers the first `E` entries of the
collision log, `at_home` is the number of zero entries, the accumulator is
their sum and `max_collisions` their largest entry; so the values printed are,
as exact rationals, `100 * zeros / E` and `sum / E`, with
`0 <= percentAtHome <= 100` and `0 <= averageCollisions <= maxCollisions`. -/
theorem C14_line_values (h : htable) (hr : Reachable h) (p : Int) (l : stats_line)
    (hl : print_stats_line h p = some [l]) :
    0 < l.current_entries ∧ l.current_entries ≤ (h.num_keys : Int) ∧
    l.current_entries.toNat ≤ h.stats.length ∧
    l.at_home = (h.stats.take l.current_entries.toNat).countP (fun x => decide (x = 0)) ∧
    l.sum_collisions = (h.stats.take l.current_entries.toNat).sum ∧
    l.max_collisions ∈ h.stats.take l.current_entries.toNat ∧
    (∀ x, x ∈ h.stats.take l.current_entries.toNat → x ≤ l.max_collisions) ∧
    printed_percent_at_home l =
      100 * (((h.stats.take l.current_entries.toNat).countP (fun x => decide (x = 0)) : Nat) : ℚ)
        / (l.current_entries : ℚ) ∧
    printed_average_collisions l =
      (((h.stats.take l.current_entries.toNat).sum : Nat) : ℚ) / (l.current_entries : ℚ) ∧
    0 ≤ printed_percent_at_home l ∧ printed_percent_at_home l ≤ 100 ∧
    0 ≤ printed_average_collisions l ∧
    printed_average_collisions l ≤ (l.max_collisions : ℚ) := by
  have hinv := inv_of_reachable h hr
  obtain ⟨e, hepos, henk, hce, _, hat, hsum, hmax⟩ := print_stats_line_emitted h p l hl
  have hlen : e ≤ h.stats.length := by
    rw [hinv.slen]
    have : h.num_keys ≤ h.capacity := by
      rw [hinv.nk, ← hinv.klen]
      exact List.countP_le_length _
    omega
  have hscan := print_stats_scan_eq h e hlen
  rw [hscan] at hat hsum hmax
  simp only at hat hsum hmax
  have htoNat : l.current_entries.toNat = e := by rw [hce, Int.toNat_natCast]
  have htakelen : (h.stats.take e).length = e := by
    rw [List.length_take]
    exact Nat.min_eq_left hlen
  have hne : h.stats.take e ≠ [] := by
    intro hnil
    rw [hnil] at htakelen
    simp at htakelen
    omega
  have hcount_le : (h.stats.take e).countP (fun x => decide (x = 0)) ≤ e := by
    have := List.countP_le_length (fun x => decide (x = 0)) (l := h.stats.take e)
    omega
  have hbound : ∀ x, x ∈ h.stats.take e → x ≤ (h.stats.take e).foldl max 0 :=
    (foldl_max_ge (h.stats.take e) 0).2
  have hsum_le : (h.stats.take e).sum ≤ e * (h.stats.take e).foldl max 0 := by
    have := List.sum_le_card_nsmul (h.stats.take e) ((h.stats.take e).foldl max 0) hbound
    rw [htakelen, smul_eq_mul] at this
    exact this
  have hEq : (l.current_entries : ℚ) = (e : ℚ) := by rw [hce]; simp
  have hEpos : (0 : ℚ) < (e : ℚ) := by exact_mod_cast hepos
  rw [htoNat]
  refine ⟨by rw [hce]; exact_mod_cast hepos, by rw [hce]; exact_mod_cast henk, hlen, hat, hsum,
    ?_, ?_, ?_, ?_, ?_, ?_, ?_, ?_⟩
  · rw [hmax]
    exact foldl_max_zero_mem _ hne
  · rw [hmax]
    exact hbound
  · simp only [printed_percent_at_home, hat]
    ring
  · simp only [printed_average_collisions, hsum]
  · simp only [printed_percent_at_home, hEq]
    positivity
  · simp only [printed_percent_at_home, hEq, hat]
    rw [div_le_iff₀ hEpos]
    have : (((h.stats.take e).countP (fun x => decide (x = 0)) : Nat) : ℚ) ≤ (e : ℚ) := by
      exact_mod_cast hcount_le
    linarith
  · simp only [printed_average_collisions, hEq]
    positivity
  · simp only [printed_average_collisions, hEq, hsum, hmax]
    rw [div_le_iff₀ hEpos]
    have : (((h.stats.take e).sum : Nat) : ℚ) ≤ ((e * (h.stats.take e).foldl max 0 : Nat) : ℚ) := by
      exact_mod_cast hsum_le
    rw [Nat.cast_mul] at this
    linarith

theorem C14_line_values_witness :
    Reachable (build 8 LINEAR_P [[97], [98], [105], [100]]) ∧
    print_stats_line (build 8 LINEAR_P [[97], [98], [105], [100]]) 50 =
      some [⟨50, 4, 3, 2, 2⟩] ∧
    printed_percent_at_home ⟨50, 4, 3, 2, 2⟩ ≤ 100 :=
  ⟨⟨8, LINEAR_P, [[97], [98], [105], [100]], by decide, rfl⟩, by decide,
    (C14_line_values (build 8 LINEAR_P [[97], [98], [105], [100]])
      ⟨8, LINEAR_P, [[97], [98], [105], [100]], by decide, rfl⟩ 50 ⟨50, 4, 3, 2, 2⟩
      (by decide)).2.2.2.2.2.2.2.2.2.2.1⟩

/-! ## Frequencies -/

theorem strcmp_self (a : Key) : strcmp a a = 0 := by
  induction a with
  | nil => rfl
  | cons x a ih => simp [strcmp, ih]

theorem strcmp_eq_zero (a b : Key) (h : strcmp a b = 0) : a = b := by
  induction a generalizing b with
  | nil =>
    cases b with
    | nil => rfl
    | cons y b => simp [strcmp] at h
  | cons x a ih =>
    cases b with
    | nil => simp [strcmp] at h
    | cons y b =>
      simp only [strcmp] at h
      by_cases hxy : x < y
      · simp [hxy] at h
      · by_cases hyx : y < x
        · simp [hxy, hyx] at h
        · simp only [hxy, hyx, if_false] at h
          have hx : x = y := by omega
          rw [hx, ih b h]

theorem strcmp_neg_swap (a b : Key) : strcmp a b < 0 ↔ 0 < strcmp b a := by
  induction a generalizing b with
  | nil =>
    cases b with
    | nil => simp [strcmp]
    | cons y b => simp [strcmp]
  | cons x a ih =>
    cases b with
    | nil => simp [strcmp]
    | cons y b =>
      simp only [strcmp]
      by_cases hxy : x < y
      · have hyx : ¬ y < x := by omega
        simp [hxy, hyx]
      · by_cases hyx : y < x
        · simp [hxy, hyx]
        · simp only [hxy, hyx, if_false]
          exact ih b

theorem strcmp_trans (a b c : Key) (hab : strcmp a b < 0) (hbc : strcmp b c < 0) :
    strcmp a c < 0 := by
  induction a generalizing b c with
  | nil =>
    cases c with
    | nil =>
      cases b with
      | nil => simp [strcmp] at hab
      | cons y b => simp [strcmp] at hbc
    | cons z c => simp [strcmp]
  | cons x a ih =>
    cases b with
    | nil => simp [strcmp] at hab
    | cons y b =>
      cases c with
      | nil => simp [strcmp] at hbc
      | cons z c =>
        simp only [strcmp] at hab hbc ⊢
        by_cases hxy : x < y
        · by_cases hyz : y < z
          · have hxz : x < z := by omega
            simp [hxz]
          · by_cases hzy : z < y
            · simp [hyz, hzy] at hbc
            · have hxz : x < z := by omega
              simp [hxz]
        · by_cases hyx : y < x
          · simp [hxy, hyx] at hab
          · simp only [hxy, hyx, if_false] at hab
            have hxe : x = y := by omega
            subst hxe
            by_cases hxz : x < z
            · simp [hxz]
            · by_cases hzx : z < x
              · simp [hxz, hzx] at hbc
              · simp only [hxz, hzx, if_false] at hbc ⊢
                exact ih b c hab hbc

theorem strcmp_irrefl (a : Key) : ¬ strcmp a a < 0 := by
  rw [strcmp_self]
  exact Int.lt_irrefl 0

theorem strcmp_asymm (a b : Key) (hab : strcmp a b < 0) : ¬ strcmp b a < 0 := by
  intro hba
  exact strcmp_irrefl a (strcmp_trans a b a hab hba)

/-! ## The tree -/

theorem IS_RED_shape (t : tree) (h : IS_RED t = true) :
    ∃ k l r f, t = tree.node k RED l r f := by
  cases t with
  | NULL => simp [IS_RED] at h
  | node k c l r f =>
    cases c with
    | RED => exact ⟨k, l, r, f, rfl⟩
    | BLACK => simp [IS_RED] at h

theorem rbt_fix_unfold (k : Key) (c : tree_colour) (l rt : tree) (f : Int) :
    rbt_fix (tree.node k c l rt f) =
      if (IS_RED l && IS_RED l.left) = true then
        if IS_RED rt = true then recolour (tree.node k c l rt f)
        else ((right_rotate (tree.node k c l rt f)).bind (set_colour BLACK)).bind
          (set_right_colour RED)
      else if (IS_RED l && IS_RED l.right) = true then
        if IS_RED rt = true then recolour (tree.node k c l rt f)
        else ((((left_rotate l).bind (fun x => set_left x (tree.node k c l rt f))).bind
          right_rotate).bind (set_colour BLACK)).bind (set_right_colour RED)
      else if (IS_RED rt && IS_RED rt.left) = true then
        if IS_RED l = true then recolour (tree.node k c l rt f)
        else ((((right_rotate rt).bind (fun x => set_right x (tree.node k c l rt f))).bind
          left_rotate).bind (set_colour BLACK)).bind (set_left_colour RED)
      else if (IS_RED rt && IS_RED rt.right) = true then
        if IS_RED l = true then
          ((set_colour RED (tree.node k c l rt f)).bind (set_right_colour BLACK)).bind
            (set_left_colour BLACK)
        else ((left_rotate (tree.node k c l rt f)).bind (set_colour BLACK)).bind
          (set_left_colour RED)
      else some (tree.node k c l rt f) := by
  unfold rbt_fix
  rw [if_neg (by intro hc; cases hc)]
  rfl

/-- On a node `rbt_fix` dereferences no `NULL` pointer, and it keeps the in-order
sequence of the keys: rotations and recolourings move no key past another. -/
theorem rbt_fix_node (k : Key) (c : tree_colour) (l rt : tree) (f : Int) :
    ∃ r2, rbt_fix (tree.node k c l rt f) = some r2 ∧
      inorder_keys r2 = inorder_keys (tree.node k c l rt f) := by
  rw [rbt_fix_unfold]
  by_cases g1 : (IS_RED l && IS_RED l.left) = true
  · rw [if_pos g1]
    rw [Bool.and_eq_true] at g1
    obtain ⟨lk, ll, lr, lf, rfl⟩ := IS_RED_shape l g1.1
    obtain ⟨llk, lll, llr, llf, hll⟩ := IS_RED_shape _ g1.2
    by_cases gr : IS_RED rt = true
    · obtain ⟨rk, rl, rr, rf, rfl⟩ := IS_RED_shape rt gr
      rw [if_pos gr]
      exact ⟨_, rfl, rfl⟩
    · rw [if_neg gr]
      exact ⟨_, rfl, by simp [inorder_keys]⟩
  · rw [if_neg g1]
    by_cases g2 : (IS_RED l && IS_RED l.right) = true
    · rw [if_pos g2]
      rw [Bool.and_eq_true] at g2
      obtain ⟨lk, ll, lr, lf, rfl⟩ := IS_RED_shape l g2.1
      obtain ⟨lrk, lrl, lrr, lrf, hlr⟩ := IS_RED_shape _ g2.2
      have hlr2 : lr = tree.node lrk RED lrl lrr lrf := hlr
      subst hlr2
      by_cases gr : IS_RED rt = true
      · obtain ⟨rk, rl, rr, rf, rfl⟩ := IS_RED_shape rt gr
        rw [if_pos gr]
        exact ⟨_, rfl, rfl⟩
      · rw [if_neg gr]
        exact ⟨_, rfl, by simp [inorder_keys]⟩
    · rw [if_neg g2]
      by_cases g3 : (IS_RED rt && IS_RED rt.left) = true
      · rw [if_pos g3]
        rw [Bool.and_eq_true] at g3
        obtain ⟨rk, rl, rr, rf, rfl⟩ := IS_RED_shape rt g3.1
        obtain ⟨rlk, rll, rlr, rlf, hrl⟩ := IS_RED_shape _ g3.2
        have hrl2 : rl = tree.node rlk RED rll rlr rlf := hrl
        subst hrl2
        by_cases gl : IS_RED l = true
        · obtain ⟨lk, ll, lr, lf, rfl⟩ := IS_RED_shape l gl
          rw [if_pos gl]
          exact ⟨_, rfl, rfl⟩
        · rw [if_neg gl]
          exact ⟨_, rfl, by simp [inorder_keys]⟩
      · rw [if_neg g3]
        by_cases g4 : (IS_RED rt && IS_RED rt.right) = true
        · rw [if_pos g4]
          rw [Bool.and_eq_true] at g4
          obtain ⟨rk, rl, rr, rf, rfl⟩ := IS_RED_shape rt g4.1
          by_cases gl : IS_RED l = true
          · obtain ⟨lk, ll, lr, lf, rfl⟩ := IS_RED_shape l gl
            rw [if_pos gl]
            exact ⟨_, rfl, rfl⟩
          · rw [if_neg gl]
            exact ⟨_, rfl, by simp [inorder_keys]⟩
        · rw [if_neg g4]
          exact ⟨_, rfl, rfl⟩

/-- A tree is a binary search tree exactly when its in-order key sequence is
strictly increasing. -/
theorem bst_iff_sorted (t : tree) :
    is_bst t ↔ List.Pairwise (fun a b => strcmp a b < 0) (inorder_keys t) := by
  induction t with
  | NULL => simp [is_bst, inorder_keys]
  | node k c l r f ihl ihr =>
    simp only [is_bst, inorder_keys, List.pairwise_append, List.pairwise_cons, ihl, ihr]
    constructor
    · rintro ⟨hl, hr, hsl, hsr⟩
      refine ⟨hsl, ⟨hr, hsr⟩, fun a ha b hb => ?_⟩
      rcases List.mem_cons.mp hb with hbk | hbr
      · rw [hbk]; exact hl a ha
      · exact strcmp_trans a k b (hl a ha) (hr b hbr)
    · rintro ⟨hsl, ⟨hr, hsr⟩, hcross⟩
      exact ⟨fun x hx => hcross x hx k (List.mem_cons_self k _), hr, hsl, hsr⟩

theorem fix_if_rbt_node (tt : tree_t) (k : Key) (c : tree_colour) (l rt : tree) (f : Int) :
    ∃ r2, fix_if_rbt tt (tree.node k c l rt f) = some r2 ∧
      inorder_keys r2 = inorder_keys (tree.node k c l rt f) := by
  unfold fix_if_rbt
  by_cases htt : tt = RBT
  · rw [if_pos htt]
    exact rbt_fix_node k c l rt f
  · rw [if_neg htt]
    exact ⟨_, rfl, rfl⟩

theorem bst_of_inorder_eq (t t2 : tree) (h : inorder_keys t2 = inorder_keys t)
    (hb : is_bst t) : is_bst t2 := by
  rw [bst_iff_sorted] at hb ⊢
  rw [h]
  exact hb

/-- A call `tree_insert(b, str)` returns a tree whose keys are those of `b` and
`str`, and which is a binary search tree when `b` is one. -/
theorem tree_insert_spec (tt : tree_t) (jc : tree_colour) (jf : Int) (t : tree) (str : Key) :
    ∃ t2, tree_insert tt jc jf t str = some t2 ∧
      (∀ x, x ∈ inorder_keys t2 ↔ (x = str ∨ x ∈ inorder_keys t)) ∧
      (is_bst t → is_bst t2) := by
  induction t with
  | NULL =>
    obtain ⟨r2, hr2, hin⟩ := fix_if_rbt_node tt str (if tt = RBT then RED else jc)
      tree.NULL tree.NULL (jf + 1)
    refine ⟨r2, hr2, fun x => ?_, fun _ => ?_⟩
    · rw [hin]
      simp [inorder_keys]
    · apply bst_of_inorder_eq _ _ hin
      simp [is_bst, inorder_keys]
  | node key colour left right frequency ihl ihr =>
    obtain ⟨l2, hl2, hlmem, hlbst⟩ := ihl
    obtain ⟨r2, hr2, hrmem, hrbst⟩ := ihr
    simp only [tree_insert]
    by_cases hlt : strcmp str key < 0
    · have hngt : ¬ strcmp str key > 0 := by omega
      rw [if_pos hlt, hl2, if_neg hngt]
      obtain ⟨t2, ht2, hin⟩ := fix_if_rbt_node tt key colour l2 right
        (if strcmp key str = 0 then frequency + 1 else frequency)
      refine ⟨t2, ht2, fun x => ?_, fun hb => ?_⟩
      · rw [hin]
        simp only [inorder_keys, List.mem_append, List.mem_cons, hlmem]
        tauto
      · apply bst_of_inorder_eq _ _ hin
        obtain ⟨h1, h2, h3, h4⟩ := hb
        refine ⟨fun x hx => ?_, h2, hlbst h3, h4⟩
        rcases (hlmem x).mp hx with hxs | hxl
        · rw [hxs]; exact hlt
        · exact h1 x hxl
    · rw [if_neg hlt]
      by_cases hgt : strcmp str key > 0
      · rw [if_pos hgt]
        simp only [hr2]
        obtain ⟨t2, ht2, hin⟩ := fix_if_rbt_node tt key colour left r2
          (if strcmp key str = 0 then frequency + 1 else frequency)
        refine ⟨t2, ht2, fun x => ?_, fun hb => ?_⟩
        · rw [hin]
          simp only [inorder_keys, List.mem_append, List.mem_cons, hrmem]
          tauto
        · apply bst_of_inorder_eq _ _ hin
          obtain ⟨h1, h2, h3, h4⟩ := hb
          refine ⟨h1, fun x hx => ?_, h3, hrbst h4⟩
          rcases (hrmem x).mp hx with hxs | hxr
          · rw [hxs]; exact (strcmp_neg_swap key str).mpr hgt
          · exact h2 x hxr
      · rw [if_neg hgt]
        have heq : str = key := strcmp_eq_zero str key (by omega)
        obtain ⟨t2, ht2, hin⟩ := fix_if_rbt_node tt key colour left right
          (if strcmp key str = 0 then frequency + 1 else frequency)
        refine ⟨t2, ht2, fun x => ?_, fun hb => ?_⟩
        · rw [hin, heq]
          simp only [inorder_keys, List.mem_append, List.mem_cons]
          tauto
        · exact bst_of_inorder_eq _ _ hin hb

/-- In a binary search tree `tree_search` returns 1 for the keys of the tree and
0 for every other key. -/
theorem tree_search_spec (t : tree) (hb : is_bst t) (str : Key) :
    tree_search t str = if str ∈ inorder_keys t then 1 else 0 := by
  induction t with
  | NULL => simp [tree_search, inorder_keys]
  | node key colour left right frequency ihl ihr =>
    obtain ⟨h1, h2, h3, h4⟩ := hb
    simp only [tree_search, inorder_keys, List.mem_append, List.mem_cons]
    by_cases heq : strcmp str key = 0
    · have hk : str = key := strcmp_eq_zero str key heq
      rw [if_pos heq, if_pos (Or.inr (Or.inl hk))]
    · have hne : str ≠ key := by
        intro hk
        rw [hk, strcmp_self] at heq
        exact heq rfl
      rw [if_neg heq]
      by_cases hlt : strcmp str key < 0
      · rw [if_pos hlt, ihl h3]
        have hnr : str ∉ inorder_keys right := by
          intro hmem
          exact strcmp_asymm str key hlt (h2 str hmem)
        by_cases hl : str ∈ inorder_keys left
        · rw [if_pos hl, if_pos (Or.inl hl)]
        · rw [if_neg hl, if_neg (by tauto)]
      · have hgt : strcmp str key > 0 := by omega
        rw [if_neg hlt, if_pos hgt, ihr h4]
        have hnl : str ∉ inorder_keys left := by
          intro hmem
          exact hlt (h1 str hmem)
        by_cases hr : str ∈ inorder_keys right
        · rw [if_pos hr, if_pos (Or.inr (Or.inr hr))]
        · rw [if_neg hr, if_neg (by tauto)]

theorem tree_insert_all_spec (tt : tree_t) (t : tree)
    (calls : List (tree_colour × Int × Key)) :
    ∃ t2, tree_insert_all tt t calls = some t2 ∧
      (∀ x, x ∈ inorder_keys t2 ↔
        (x ∈ calls.map (fun call => call.2.2) ∨ x ∈ inorder_keys t)) ∧
      (is_bst t → is_bst t2) := by
  induction calls generalizing t with
  | nil => exact ⟨t, rfl, fun x => by simp, fun hb => hb⟩
  | cons call rest ih =>
    obtain ⟨t1, ht1, hmem1, hbst1⟩ := tree_insert_spec tt call.1 call.2.1 t call.2.2
    obtain ⟨t2, ht2, hmem2, hbst2⟩ := ih t1
    refine ⟨t2, ?_, fun x => ?_, fun hb => hbst2 (hbst1 hb)⟩
    · simp only [tree_insert_all, ht1]
      exact ht2
    · rw [hmem2, hmem1]
      simp only [List.map_cons, List.mem_cons]
      tauto

/-- C22: a sequence of `tree_insert` calls on `tree_new(type)`, for `BST` and for
`RBT`, returns a tree that is a binary search tree on keys (strictly increasing
in-order keys, so no key in two nodes), on which `tree_search(k)` returns 1
exactly for the keys passed to `tree_insert` and 0 otherwise; and whenever
`rbt_fix` returns, its rotations and recolourings keep the in-order keys and
the search-tree property. -/
theorem C22_tree_is_bst (tree_type : tree_t) (calls : List (tree_colour × Int × Key)) :
    ∃ t, tree_build tree_type calls = some t ∧ is_bst t ∧
      List.Pairwise (fun a b => strcmp a b < 0) (inorder_keys t) ∧
      (inorder_keys t).Nodup ∧
      (∀ k, tree_search t k = if k ∈ calls.map (fun call => call.2.2) then 1 else 0) ∧
      (∀ r r2, rbt_fix r = some r2 →
        inorder_keys r2 = inorder_keys r ∧ (is_bst r → is_bst r2)) := by
  obtain ⟨t, ht, hmem, hbst⟩ := tree_insert_all_spec tree_type (tree_new tree_type) calls
  have hb : is_bst t := hbst trivial
  have hsorted := (bst_iff_sorted t).mp hb
  refine ⟨t, ht, hb, hsorted, ?_, fun k => ?_, fun r r2 hr => ?_⟩
  · apply List.Pairwise.imp _ hsorted
    intro a b hab heq
    rw [heq] at hab
    exact strcmp_irrefl b hab
  · rw [tree_search_spec t hb k]
    have hiff : k ∈ inorder_keys t ↔ k ∈ calls.map (fun call => call.2.2) := by
      rw [hmem k]
      simp [tree_new, inorder_keys]
    by_cases hk : k ∈ inorder_keys t
    · rw [if_pos hk, if_pos (hiff.mp hk)]
    · rw [if_neg hk, if_neg (fun hc => hk (hiff.mpr hc))]
  · cases r with
    | NULL => simp [rbt_fix] at hr
    | node k c l rt f =>
      obtain ⟨r3, hr3, hin⟩ := rbt_fix_node k c l rt f
      rw [hr3] at hr
      injection hr with hr
      subst hr
      exact ⟨hin, bst_of_inorder_eq _ _ hin⟩

/-! ## Colours and black heights -/

theorem no_red_red_node (k : Key) (c : tree_colour) (l r : tree) (f : Int) :
    no_red_red (tree.node k c l r f) = true ↔
      ((c = RED → IS_RED l = false ∧ IS_RED r = false) ∧
        no_red_red l = true ∧ no_red_red r = true) := by
  cases c <;> cases hl : IS_RED l <;> cases hr : IS_RED r <;> simp [no_red_red, hl, hr]

theorem black_height_node (k : Key) (c : tree_colour) (l r : tree) (f : Int) (n : Nat) :
    black_height (tree.node k c l r f) = some n ↔
      ∃ m, black_height l = some m ∧ black_height r = some m ∧
        n = m + (if c = BLACK then 1 else 0) := by
  simp only [black_height]
  cases hl : black_height l with
  | none => simp
  | some a =>
    cases hr : black_height r with
    | none => simp
    | some b =>
      simp only
      by_cases hab : a = b
      · subst hab
        simp only [if_true, Option.some.injEq]
        constructor
        · intro h; exact ⟨a, rfl, rfl, h.symm⟩
        · rintro ⟨m, hm1, _, hn⟩; rw [hn, hm1]
      · simp only [hab, if_false]
        constructor
        · intro h; cases h
        · rintro ⟨m, hm1, hm2, _⟩
          exact absurd (Option.some.inj (hm1.trans hm2.symm)) hab

theorem guards_false_of_proper (l : tree) (h : no_red_red l = true) :
    (IS_RED l && IS_RED l.left) = false ∧ (IS_RED l && IS_RED l.right) = false := by
  cases l with
  | NULL => simp [IS_RED]
  | node k c ll lr f =>
    rw [no_red_red_node] at h
    cases c with
    | RED =>
      have := h.1 rfl
      simp only [tree.left, tree.right, this.1, this.2, Bool.and_false, and_self]
    | BLACK => simp [IS_RED]


/-- With no red child of a red child on either side `rbt_fix` changes
nothing. -/
theorem rbt_fix_id (k : Key) (c : tree_colour) (l r : tree) (f : Int)
    (hl : no_red_red l = true) (hr : no_red_red r = true) :
    rbt_fix (tree.node k c l r f) = some (tree.node k c l r f) := by
  have gl := guards_false_of_proper l hl
  have gr := guards_false_of_proper r hr
  rw [rbt_fix_unfold, if_neg (by rw [gl.1]; exact Bool.false_ne_true),
    if_neg (by rw [gl.2]; exact Bool.false_ne_true),
    if_neg (by rw [gr.1]; exact Bool.false_ne_true),
    if_neg (by rw [gr.2]; exact Bool.false_ne_true)]

theorem almost_red_shape (t : tree) (h : almost_red t = true) :
    ∃ k l r f, t = tree.node k RED l r f ∧ no_red_red l = true ∧ no_red_red r = true ∧
      (IS_RED l = false ∨ IS_RED r = false) := by
  cases t with
  | NULL => simp [almost_red] at h
  | node k c l r f =>
    cases c with
    | BLACK => simp [almost_red] at h
    | RED =>
      simp only [almost_red, decide_True, Bool.true_and, Bool.and_eq_true,
        Bool.not_eq_true', Bool.and_eq_false_iff] at h
      exact ⟨k, l, r, f, rfl, h.1.1, h.1.2, h.2⟩

theorem IS_RED_false_of_not (t : tree) (h : ¬ IS_RED t = true) : IS_RED t = false := by
  cases hr : IS_RED t with
  | true => exact absurd hr h
  | false => rfl

/-- A red node with red children excluded, under a node: what `no_red_red` and
`black_height` say about a red node. -/
theorem red_node_facts (k : Key) (l r : tree) (f : Int) (m : Nat)
    (hp : no_red_red (tree.node k RED l r f) = true)
    (hb : black_height (tree.node k RED l r f) = some m) :
    IS_RED l = false ∧ IS_RED r = false ∧ no_red_red l = true ∧ no_red_red r = true ∧
      black_height l = some m ∧ black_height r = some m := by
  rw [no_red_red_node] at hp
  rw [black_height_node] at hb
  obtain ⟨m2, h1, h2, h3⟩ := hb
  have hm : m = m2 := by simpa using h3
  subst hm
  exact ⟨(hp.1 rfl).1, (hp.1 rfl).2, hp.2.1, hp.2.2, h1, h2⟩

theorem IS_RED_red (k : Key) (l r : tree) (f : Int) :
    IS_RED (tree.node k RED l r f) = true := rfl

theorem IS_RED_black (k : Key) (l r : tree) (f : Int) :
    IS_RED (tree.node k BLACK l r f) = false := rfl

theorem red_child_of_not_proper (k : Key) (l r : tree) (f : Int)
    (hl : no_red_red l = true) (hr : no_red_red r = true)
    (hnp : no_red_red (tree.node k RED l r f) = false) :
    IS_RED l = true ∨ IS_RED r = true := by
  cases hrl : IS_RED l with
  | true => exact Or.inl rfl
  | false =>
    cases hrr : IS_RED r with
    | true => exact Or.inr rfl
    | false =>
      have : no_red_red (tree.node k RED l r f) = true := by
        rw [no_red_red_node]
        exact ⟨fun _ => ⟨hrl, hrr⟩, hl, hr⟩
      rw [this] at hnp
      cases hnp

/-- The left subtree came back from an insertion as a red node with one red
child: `rbt_fix` recolours or rotates, and the result has no red node with a red
child and one more black node on every path than the subtrees had. -/
theorem rbt_fix_left (k : Key) (c : tree_colour) (l r : tree) (f : Int) (m : Nat)
    (hal : almost_red l = true) (hnp : no_red_red l = false)
    (hbl : black_height l = some m) (hbr : black_height r = some m)
    (hr : no_red_red r = true) :
    ∃ t, rbt_fix (tree.node k c l r f) = some t ∧ no_red_red t = true ∧
      black_height t = some (m + 1) := by
  obtain ⟨lk, ll, lr, lf, rfl, pll, plr, hone⟩ := almost_red_shape l hal
  rw [black_height_node] at hbl
  obtain ⟨m2, bll, blr, hm⟩ := hbl
  have hm2 : m2 = m := by simpa using hm.symm
  subst hm2
  rw [rbt_fix_unfold]
  rcases red_child_of_not_proper lk ll lr lf pll plr hnp with hll | hlr
  · obtain ⟨llk, lll, llr, llf, rfl⟩ := IS_RED_shape ll hll
    obtain ⟨_, _, q1, q2, b1, b2⟩ := red_node_facts llk lll llr llf m2 pll bll
    have hlrn : IS_RED lr = false := by
      rcases hone with h1 | h1
      · rw [hll] at h1; cases h1
      · exact h1
    rw [if_pos (by rfl)]
    by_cases gr : IS_RED r = true
    · obtain ⟨rk, rl, rr, rf, rfl⟩ := IS_RED_shape r gr
      obtain ⟨_, _, q3, q4, b3, b4⟩ := red_node_facts rk rl rr rf m2 hr hbr
      rw [if_pos gr]
      refine ⟨_, rfl, ?_, ?_⟩
      · simp [no_red_red_node, IS_RED_red, IS_RED_black, pll, plr, q3, q4]
      · simp [black_height_node, bll, blr, b3, b4]
    · rw [if_neg gr]
      have grf := IS_RED_false_of_not r gr
      refine ⟨_, rfl, ?_, ?_⟩
      · simp [no_red_red_node, IS_RED_red, IS_RED_black, pll, plr, hr, hlrn, grf]
      · simp [black_height_node, bll, blr, hbr]
  · obtain ⟨lrk, lrl, lrr, lrf, rfl⟩ := IS_RED_shape lr hlr
    obtain ⟨n1, n2, q1, q2, b1, b2⟩ := red_node_facts lrk lrl lrr lrf m2 plr blr
    have hlln : IS_RED ll = false := by
      rcases hone with h1 | h1
      · exact h1
      · rw [hlr] at h1; cases h1
    rw [if_neg (by simp [IS_RED_red, tree.left, hlln]), if_pos (by rfl)]
    by_cases gr : IS_RED r = true
    · obtain ⟨rk, rl, rr, rf, rfl⟩ := IS_RED_shape r gr
      obtain ⟨_, _, q3, q4, b3, b4⟩ := red_node_facts rk rl rr rf m2 hr hbr
      rw [if_pos gr]
      refine ⟨_, rfl, ?_, ?_⟩
      · simp [no_red_red_node, IS_RED_red, IS_RED_black, pll, plr, q3, q4]
      · simp [black_height_node, bll, blr, b3, b4]
    · rw [if_neg gr]
      have grf := IS_RED_false_of_not r gr
      refine ⟨_, rfl, ?_, ?_⟩
      · simp [no_red_red_node, IS_RED_red, IS_RED_black, pll, q1, q2, hr, hlln, n1, n2, grf]
      · simp [black_height_node, bll, b1, b2, hbr]

/-- The right subtree came back from an insertion as a red node with one red
child: the mirror image of `rbt_fix_left`. -/
theorem rbt_fix_right (k : Key) (c : tree_colour) (l r : tree) (f : Int) (m : Nat)
    (har : almost_red r = true) (hnp : no_red_red r = false)
    (hbl : black_height l = some m) (hbr : black_height r = some m)
    (hl : no_red_red l = true) :
    ∃ t, rbt_fix (tree.node k c l r f) = some t ∧ no_red_red t = true ∧
      black_height t = some (m + 1) := by
  obtain ⟨rk, rl, rr, rf, rfl, prl, prr, hone⟩ := almost_red_shape r har
  rw [black_height_node] at hbr
  obtain ⟨m2, brl, brr, hm⟩ := hbr
  have hm2 : m2 = m := by simpa using hm.symm
  subst hm2
  have gl := guards_false_of_proper l hl
  rw [rbt_fix_unfold, if_neg (by rw [gl.1]; exact Bool.false_ne_true),
    if_neg (by rw [gl.2]; exact Bool.false_ne_true)]
  rcases red_child_of_not_proper rk rl rr rf prl prr hnp with hrl | hrr
  · obtain ⟨rlk, rll, rlr, rlf, rfl⟩ := IS_RED_shape rl hrl
    obtain ⟨n1, n2, q1, q2, b1, b2⟩ := red_node_facts rlk rll rlr rlf m2 prl brl
    have hrrn : IS_RED rr = false := by
      rcases hone with h1 | h1
      · rw [hrl] at h1; cases h1
      · exact h1
    rw [if_pos (by rfl)]
    by_cases gl2 : IS_RED l = true
    · obtain ⟨lk, ll, lr, lf, rfl⟩ := IS_RED_shape l gl2
      obtain ⟨_, _, q3, q4, b3, b4⟩ := red_node_facts lk ll lr lf m2 hl hbl
      rw [if_pos gl2]
      refine ⟨_, rfl, ?_, ?_⟩
      · simp [no_red_red_node, IS_RED_red, IS_RED_black, prl, prr, q3, q4]
      · simp [black_height_node, brl, brr, b3, b4]
    · rw [if_neg gl2]
      have glf := IS_RED_false_of_not l gl2
      refine ⟨_, rfl, ?_, ?_⟩
      · simp [no_red_red_node, IS_RED_red, IS_RED_black, prr, q1, q2, hl, hrrn, n1, n2, glf]
      · simp [black_height_node, brr, b1, b2, hbl]
  · obtain ⟨rrk, rrl, rrr, rrf, rfl⟩ := IS_RED_shape rr hrr
    have hrln : IS_RED rl = false := by
      rcases hone with h1 | h1
      · exact h1
      · rw [hrr] at h1; cases h1
    rw [if_neg (by simp [IS_RED_red, tree.left, hrln]), if_pos (by rfl)]
    by_cases gl2 : IS_RED l = true
    · obtain ⟨lk, ll, lr, lf, rfl⟩ := IS_RED_shape l gl2
      obtain ⟨_, _, q3, q4, b3, b4⟩ := red_node_facts lk ll lr lf m2 hl hbl
      rw [if_pos gl2]
      refine ⟨_, rfl, ?_, ?_⟩
      · simp [no_red_red_node, IS_RED_red, IS_RED_black, prl, prr, q3, q4]
      · simp [black_height_node, brl, brr, b3, b4]
    · rw [if_neg gl2]
      have glf := IS_RED_false_of_not l gl2
      refine ⟨_, rfl, ?_, ?_⟩
      · simp [no_red_red_node, IS_RED_red, IS_RED_black, prl, prr, hl, hrln, glf]
      · simp [black_height_node, brl, brr, hbl]

theorem colour_of_IS_RED_false (k : Key) (c : tree_colour) (l r : tree) (f : Int)
    (h : IS_RED (tree.node k c l r f) = false) : c = BLACK := by
  cases c with
  | RED => cases h
  | BLACK => rfl

theorem colour_of_IS_RED_true (k : Key) (c : tree_colour) (l r : tree) (f : Int)
    (h : IS_RED (tree.node k c l r f) = true) : c = RED := by
  cases c with
  | RED => rfl
  | BLACK => cases h

theorem not_proper_false (t : tree) (h : ¬ no_red_red t = true) : no_red_red t = false := by
  cases hr : no_red_red t with
  | true => exact absurd hr h
  | false => rfl

/-- What `rbt_fix` returns for a node of a subtree that had no red node with a
red child, after an insertion into one of its children gave `l2` and `r2` (one
of them the old child): the black height is kept; a black node comes back
without a red node with a red child, a red node as a red node with at most one
red child. -/
theorem rbt_fix_inner (k : Key) (c : tree_colour) (l2 r2 : tree) (f : Int) (m : Nat)
    (hcl : c = RED → (no_red_red l2 = true ∧ no_red_red r2 = true ∧
      (IS_RED l2 = false ∨ IS_RED r2 = false)))
    (hl : no_red_red l2 = true ∨ (almost_red l2 = true ∧ no_red_red r2 = true))
    (hr : no_red_red r2 = true ∨ (almost_red r2 = true ∧ no_red_red l2 = true))
    (hbl : black_height l2 = some m) (hbr : black_height r2 = some m) :
    ∃ t2, rbt_fix (tree.node k c l2 r2 f) = some t2 ∧
      black_height t2 = some (m + (if c = BLACK then 1 else 0)) ∧
      (c = BLACK → no_red_red t2 = true) ∧ (c = RED → almost_red t2 = true) := by
  by_cases hpl : no_red_red l2 = true
  · by_cases hpr : no_red_red r2 = true
    · refine ⟨_, rbt_fix_id k c l2 r2 f hpl hpr, ?_, ?_, ?_⟩
      · rw [black_height_node]
        exact ⟨m, hbl, hbr, rfl⟩
      · intro hc
        rw [no_red_red_node]
        exact ⟨fun hc2 => (by rw [hc] at hc2; cases hc2), hpl, hpr⟩
      · intro hc
        subst hc
        have h3 := (hcl rfl).2.2
        simp only [almost_red, decide_True, Bool.true_and, hpl, hpr]
        rcases h3 with h3 | h3 <;> simp [h3]
    · have hnr := not_proper_false r2 hpr
      rcases hr with hr | ⟨har, _⟩
      · exact absurd hr hpr
      · have hcb : c = BLACK := by
          cases c with
          | BLACK => rfl
          | RED => exact absurd (hcl rfl).2.1 hpr
        subst hcb
        obtain ⟨t2, ht2, hp2, hb2⟩ := rbt_fix_right k BLACK l2 r2 f m har hnr hbl hbr hpl
        exact ⟨t2, ht2, by simpa using hb2, fun _ => hp2, fun hc => by cases hc⟩
  · have hnl := not_proper_false l2 hpl
    rcases hl with hl | ⟨hal, hpr⟩
    · exact absurd hl hpl
    · have hcb : c = BLACK := by
        cases c with
        | BLACK => rfl
        | RED => exact absurd (hcl rfl).1 hpl
      subst hcb
      obtain ⟨t2, ht2, hp2, hb2⟩ := rbt_fix_left k BLACK l2 r2 f m hal hnl hbl hbr hpr
      exact ⟨t2, ht2, by simpa using hb2, fun _ => hp2, fun hc => by cases hc⟩

theorem fix_if_rbt_RBT (b : tree) : fix_if_rbt RBT b = rbt_fix b := by
  simp [fix_if_rbt]

theorem IS_RED_cases (t : tree) : IS_RED t = false ∨ IS_RED t = true := by
  cases IS_RED t
  · exact Or.inl rfl
  · exact Or.inr rfl

/-- In `RBT` mode, `tree_insert` into a subtree with no red node with a red
child and with equal black counts on all paths: the black count is kept; a
subtree with a black (or no) root comes back without a red node with a red
child, a subtree with a red root as a red node with at most one red child. -/
theorem rbt_insert_proper (jc : tree_colour) (jf : Int) (t : tree) (str : Key) (n : Nat)
    (hp : no_red_red t = true) (hb : black_height t = some n) :
    ∃ t2, tree_insert RBT jc jf t str = some t2 ∧ black_height t2 = some n ∧
      (IS_RED t = false → no_red_red t2 = true) ∧
      (IS_RED t = true → almost_red t2 = true) := by
  induction t generalizing n with
  | NULL =>
    have hn : n = 0 := by
      simp only [black_height, Option.some.injEq] at hb
      exact hb.symm
    subst hn
    refine ⟨tree.node str RED tree.NULL tree.NULL (jf + 1), ?_, rfl, fun _ => rfl,
      fun h => by cases h⟩
    simp only [tree_insert, fix_if_rbt_RBT, if_true]
    exact rbt_fix_id str RED tree.NULL tree.NULL (jf + 1) rfl rfl
  | node k c l r f ihl ihr =>
    rw [no_red_red_node] at hp
    obtain ⟨hcr, pl, pr⟩ := hp
    rw [black_height_node] at hb
    obtain ⟨m, bl, br, hn⟩ := hb
    subst hn
    have hfinish : ∀ l2 r2 f2,
        (c = RED → (no_red_red l2 = true ∧ no_red_red r2 = true ∧
          (IS_RED l2 = false ∨ IS_RED r2 = false))) →
        (no_red_red l2 = true ∨ (almost_red l2 = true ∧ no_red_red r2 = true)) →
        (no_red_red r2 = true ∨ (almost_red r2 = true ∧ no_red_red l2 = true)) →
        black_height l2 = some m → black_height r2 = some m →
        ∃ t2, rbt_fix (tree.node k c l2 r2 f2) = some t2 ∧
          black_height t2 = some (m + (if c = BLACK then 1 else 0)) ∧
          (IS_RED (tree.node k c l r f) = false → no_red_red t2 = true) ∧
          (IS_RED (tree.node k c l r f) = true → almost_red t2 = true) := by
      intro l2 r2 f2 h1 h2 h3 h4 h5
      obtain ⟨t2, ht2, hb2, hq1, hq2⟩ := rbt_fix_inner k c l2 r2 f2 m h1 h2 h3 h4 h5
      exact ⟨t2, ht2, hb2, fun hc => hq1 (colour_of_IS_RED_false k c l r f hc),
        fun hc => hq2 (colour_of_IS_RED_true k c l r f hc)⟩
    simp only [tree_insert, fix_if_rbt_RBT]
    by_cases hlt : strcmp str k < 0
    · have hngt : ¬ strcmp str k > 0 := by omega
      obtain ⟨l2, hl2, bl2, q1, q2⟩ := ihl m pl bl
      rw [if_pos hlt, hl2, if_neg hngt]
      apply hfinish l2 r _ _ _ (Or.inl pr) bl2 br
      · intro hc
        exact ⟨q1 (hcr hc).1, pr, Or.inr (hcr hc).2⟩
      · rcases IS_RED_cases l with h | h
        · exact Or.inl (q1 h)
        · exact Or.inr ⟨q2 h, pr⟩
    · rw [if_neg hlt]
      by_cases hgt : strcmp str k > 0
      · obtain ⟨r2, hr2, br2, q1, q2⟩ := ihr m pr br
        rw [if_pos hgt]
        simp only [hr2]
        apply hfinish l r2 _ _ (Or.inl pl) _ bl br2
        · intro hc
          exact ⟨pl, q1 (hcr hc).2, Or.inl (hcr hc).1⟩
        · rcases IS_RED_cases r with h | h
          · exact Or.inl (q1 h)
          · exact Or.inr ⟨q2 h, pl⟩
      · rw [if_neg hgt]
        apply hfinish l r _ _ (Or.inl pl) (Or.inl pr) bl br
        intro hc
        exact ⟨pl, pr, Or.inl (hcr hc).1⟩

/-- A tree whose root's subtrees have no red node with a red child and whose
paths agree on the black count stays so under `tree_insert` in `RBT` mode: a red
root with a red child is the only red-red pair that can be left. -/
theorem rbt_insert_root (jc : tree_colour) (jf : Int) (t : tree) (str : Key)
    (hp : root_children_proper t = true) (hb : (black_height t).isSome = true) :
    ∃ t2, tree_insert RBT jc jf t str = some t2 ∧ root_children_proper t2 = true ∧
      (black_height t2).isSome = true := by
  have hproper_root : ∀ t2, no_red_red t2 = true → root_children_proper t2 = true := by
    intro t2 h
    cases t2 with
    | NULL => rfl
    | node k c l r f =>
      rw [no_red_red_node] at h
      simp [root_children_proper, h.2.1, h.2.2]
  cases t with
  | NULL =>
    obtain ⟨t2, ht2, hb2, q1, _⟩ := rbt_insert_proper jc jf tree.NULL str 0 rfl rfl
    exact ⟨t2, ht2, hproper_root t2 (q1 rfl), by rw [hb2]; rfl⟩
  | node k c l r f =>
    simp only [root_children_proper, Bool.and_eq_true] at hp
    obtain ⟨pl, pr⟩ := hp
    obtain ⟨n, hn⟩ := Option.isSome_iff_exists.mp hb
    rw [black_height_node] at hn
    obtain ⟨m, bl, br, _⟩ := hn
    have hfinish : ∀ l2 r2 f2,
        (no_red_red l2 = true ∨ (almost_red l2 = true ∧ no_red_red r2 = true)) →
        (no_red_red r2 = true ∨ (almost_red r2 = true ∧ no_red_red l2 = true)) →
        black_height l2 = some m → black_height r2 = some m →
        ∃ t2, rbt_fix (tree.node k c l2 r2 f2) = some t2 ∧ root_children_proper t2 = true ∧
          (black_height t2).isSome = true := by
      intro l2 r2 f2 h2 h3 h4 h5
      by_cases hpl : no_red_red l2 = true
      · by_cases hpr : no_red_red r2 = true
        · refine ⟨_, rbt_fix_id k c l2 r2 f2 hpl hpr, ?_, ?_⟩
          · simp [root_children_proper, hpl, hpr]
          · have : black_height (tree.node k c l2 r2 f2) =
                some (m + (if c = BLACK then 1 else 0)) := by
              rw [black_height_node]
              exact ⟨m, h4, h5, rfl⟩
            rw [this]
            rfl
        · rcases h3 with h3 | ⟨har, _⟩
          · exact absurd h3 hpr
          · obtain ⟨t2, ht2, hp2, hb2⟩ :=
              rbt_fix_right k c l2 r2 f2 m har (not_proper_false r2 hpr) h4 h5 hpl
            exact ⟨t2, ht2, hproper_root t2 hp2, by rw [hb2]; rfl⟩
      · rcases h2 with h2 | ⟨hal, hpr⟩
        · exact absurd h2 hpl
        · obtain ⟨t2, ht2, hp2, hb2⟩ :=
            rbt_fix_left k c l2 r2 f2 m hal (not_proper_false l2 hpl) h4 h5 hpr
          exact ⟨t2, ht2, hproper_root t2 hp2, by rw [hb2]; rfl⟩
    simp only [tree_insert, fix_if_rbt_RBT]
    by_cases hlt : strcmp str k < 0
    · have hngt : ¬ strcmp str k > 0 := by omega
      obtain ⟨l2, hl2, bl2, q1, q2⟩ := rbt_insert_proper jc jf l str m pl bl
      rw [if_pos hlt, hl2, if_neg hngt]
      apply hfinish l2 r _ _ (Or.inl pr) bl2 br
      rcases IS_RED_cases l with h | h
      · exact Or.inl (q1 h)
      · exact Or.inr ⟨q2 h, pr⟩
    · rw [if_neg hlt]
      by_cases hgt : strcmp str k > 0
      · obtain ⟨r2, hr2, br2, q1, q2⟩ := rbt_insert_proper jc jf r str m pr br
        rw [if_pos hgt]
        simp only [hr2]
        apply hfinish l r2 _ (Or.inl pl) _ bl br2
        rcases IS_RED_cases r with h | h
        · exact Or.inl (q1 h)
        · exact Or.inr ⟨q2 h, pl⟩
      · rw [if_neg hgt]
        exact hfinish l r _ (Or.inl pl) (Or.inl pr) bl br

/-- Every tree built in `RBT` mode has the same number of black nodes on all
paths from the root to a `NULL` leaf, and no red node with a red child below
the root. -/
theorem rbt_build_invariant (calls : List (tree_colour × Int × Key)) :
    ∃ t, tree_build RBT calls = some t ∧ root_children_proper t = true ∧
      (black_height t).isSome = true := by
  have hgen : ∀ (t : tree), root_children_proper t = true → (black_height t).isSome = true →
      ∃ t2, tree_insert_all RBT t calls = some t2 ∧ root_children_proper t2 = true ∧
        (black_height t2).isSome = true := by
    induction calls with
    | nil => exact fun t hp hb => ⟨t, rfl, hp, hb⟩
    | cons call rest ih =>
      intro t hp hb
      obtain ⟨t1, ht1, hp1, hb1⟩ := rbt_insert_root call.1 call.2.1 t call.2.2 hp hb
      obtain ⟨t2, ht2, hp2, hb2⟩ := ih t1 hp1 hb1
      refine ⟨t2, ?_, hp2, hb2⟩
      simp only [tree_insert_all, ht1]
      exact ht2
  exact hgen (tree_new RBT) rfl rfl

/-- C23 (the code at the failing input): in `RBT` mode, inserting "a" and then "b"
into the tree of `tree_new` returns the node "a", red, with the red right child
"b": a red node with a red child.  Nothing recolours the root. -/
theorem C23_red_root_red_child :
    tree_build RBT [(BLACK, 0, [97]), (BLACK, 0, [98])] =
      some (tree.node [97] RED tree.NULL (tree.node [98] RED tree.NULL tree.NULL 1) 1) ∧
    no_red_red (tree.node [97] RED tree.NULL (tree.node [98] RED tree.NULL tree.NULL 1) 1) =
      false ∧
    black_height (tree.node [97] RED tree.NULL (tree.node [98] RED tree.NULL tree.NULL 1) 1) =
      some 0 := by
  decide

end WordFreq
